import Mathlib

/-!
carsynth: RPM trajectories, the playback-rate tick and the spectrum analyser.

A shallow embedding of `main.go`.

Modelling conventions.

* Go's `int` is the 64-bit two's complement integer `Int64`; its arithmetic wraps
  modulo 2^64 and its `/` truncates toward zero.
* The cursor of an `InterpolateRPM` counts the `Step` calls made on it.  It is
  unexported, starts at zero and grows by one per call, so it cannot wrap in fewer
  than 2^63 calls; it is kept as an integer counter, and the arithmetic that uses it
  wraps.
* Go's `float64` is `Float64`: a finite value is the rational it denotes, every
  operation rounds its exact result to the nearest double, ties to even, with
  subnormals and overflow to infinity; the two zeros are not told apart.  The conversion
  `int(x)` truncates toward zero; on a value outside `int` it gives the smallest
  `int`, as amd64 does.  No fused multiply-add is used.
* The resample ratio of a tick is kept as the exact quotient; only its sign is
  claimed, and the rounded quotient of two converted integers has the sign of the
  exact one.
* A Go runtime panic and a returned `error` are both a `Fault`, carried by `Except`.
* Pointer receivers that mutate their struct become functions returning the new struct
  next to the result.
* The libraries the program calls (wav decoding, FFT, complex modulus, plotting, the
  random source) are parameters of the embedding.
-/

namespace CarSynth

/-! ## Machine integers -/

/-- Reduction of an integer to the 64-bit two's complement range. -/
def wrap64 (x : Int) : Int :=
  (x + 9223372036854775808) % 18446744073709551616 - 9223372036854775808

/-- A value of Go's `int` on a 64-bit platform. -/
structure Int64 where
  toInt : Int
  lo : -9223372036854775808 ≤ toInt
  hi : toInt < 9223372036854775808
  deriving DecidableEq

/-- The `int` an integer wraps to. -/
def Int64.ofInt (x : Int) : Int64 :=
  ⟨wrap64 x, by unfold wrap64; omega, by unfold wrap64; omega⟩

instance (n : Nat) : OfNat Int64 n := ⟨Int64.ofInt n⟩
instance : Neg Int64 := ⟨fun a => Int64.ofInt (-a.toInt)⟩
instance : Add Int64 := ⟨fun a b => Int64.ofInt (a.toInt + b.toInt)⟩
instance : Sub Int64 := ⟨fun a b => Int64.ofInt (a.toInt - b.toInt)⟩
instance : Mul Int64 := ⟨fun a b => Int64.ofInt (a.toInt * b.toInt)⟩
/-- Go's integer quotient, truncated toward zero; the callers check the divisor. -/
instance : Div Int64 := ⟨fun a b => Int64.ofInt (Int.tdiv a.toInt b.toInt)⟩
instance : LE Int64 := ⟨fun a b => a.toInt ≤ b.toInt⟩
instance : LT Int64 := ⟨fun a b => a.toInt < b.toInt⟩
instance (a b : Int64) : Decidable (a ≤ b) := inferInstanceAs (Decidable (a.toInt ≤ b.toInt))
instance (a b : Int64) : Decidable (a < b) := inferInstanceAs (Decidable (a.toInt < b.toInt))

/-! ## Floating point -/

/-- A value of Go's `float64`. -/
inductive Float64
  | finite (q : ℚ)
  | inf (negative : Bool)
  | nan
  deriving DecidableEq

/-- The number of binary digits of `n`, for `fuel ≥ n`. -/
def bitLength : Nat → Nat → Nat
  | 0, _ => 0
  | fuel + 1, n => if n = 0 then 0 else bitLength fuel (n / 2) + 1

/-- The integer part of the binary logarithm of a positive rational. -/
def ilog2 (y : ℚ) : Int :=
  if (2 : ℚ) ^ ((bitLength y.num.natAbs y.num.natAbs : Int) - (bitLength y.den y.den : Int)) ≤ y
  then (bitLength y.num.natAbs y.num.natAbs : Int) - (bitLength y.den y.den : Int)
  else (bitLength y.num.natAbs y.num.natAbs : Int) - (bitLength y.den y.den : Int) - 1

/-- Rounding to the nearest integer, a tie going to the even one. -/
def roundHalfEven (t : ℚ) : Int :=
  if t - ⌊t⌋ < 1 / 2 then ⌊t⌋
  else if 1 / 2 < t - ⌊t⌋ then ⌊t⌋ + 1
  else if ⌊t⌋ % 2 = 0 then ⌊t⌋ else ⌊t⌋ + 1

/-- Rounding of an exact result to `float64`: 53 significant bits, the last place no
finer than 2^-1074, nearest with ties to even, infinity from 2^1024 on. -/
def Float64.round (y : ℚ) : Float64 :=
  if y = 0 then .finite 0
  else
    let e : Int := max (ilog2 |y| - 52) (-1074)
    let r : ℚ := (roundHalfEven (|y| / 2 ^ e) : ℚ) * 2 ^ e
    if (2 : ℚ) ^ (1024 : Int) ≤ r then .inf (decide (y < 0))
    else .finite (if y < 0 then -r else r)

instance (n : Nat) : OfNat Float64 n := ⟨Float64.round n⟩

/-- The conversion `float64(x)` of an integer. -/
def Float64.ofInt (x : Int) : Float64 :=
  Float64.round x

/-- Negation. -/
def Float64.neg : Float64 → Float64
  | .finite a => .finite (-a)
  | .inf s => .inf (!s)
  | .nan => .nan

/-- Addition. -/
def Float64.add : Float64 → Float64 → Float64
  | .finite a, .finite b => Float64.round (a + b)
  | .finite _, .inf s => .inf s
  | .inf s, .finite _ => .inf s
  | .inf s, .inf t => if s = t then .inf s else .nan
  | _, _ => .nan

/-- Multiplication. -/
def Float64.mul : Float64 → Float64 → Float64
  | .finite a, .finite b => Float64.round (a * b)
  | .finite a, .inf s => if a = 0 then .nan else .inf (xor s (decide (a < 0)))
  | .inf s, .finite b => if b = 0 then .nan else .inf (xor s (decide (b < 0)))
  | .inf s, .inf t => .inf (xor s t)
  | _, _ => .nan

/-- Division. -/
def Float64.div : Float64 → Float64 → Float64
  | .finite a, .finite b =>
    if b = 0 then (if a = 0 then .nan else .inf (decide (a < 0)))
    else Float64.round (a / b)
  | .finite _, .inf _ => .finite 0
  | .inf s, .finite b => .inf (xor s (decide (b < 0)))
  | _, _ => .nan

/-- The comparison `a < b`; false when either side is not a number. -/
def Float64.lt : Float64 → Float64 → Bool
  | .finite a, .finite b => decide (a < b)
  | .finite _, .inf s => !s
  | .inf s, .finite _ => s
  | .inf s, .inf t => s && !t
  | _, _ => false

instance : Neg Float64 := ⟨Float64.neg⟩
instance : Add Float64 := ⟨Float64.add⟩
instance : Sub Float64 := ⟨fun a b => Float64.add a (Float64.neg b)⟩
instance : Mul Float64 := ⟨Float64.mul⟩
instance : Div Float64 := ⟨Float64.div⟩
instance : LT Float64 := ⟨fun a b => Float64.lt a b = true⟩
instance (a b : Float64) : Decidable (a < b) :=
  inferInstanceAs (Decidable (Float64.lt a b = true))

/-- The conversion `int(x)` of a `float64`: truncation toward zero, and the smallest
`int` when the value is not a number or does not fit. -/
def Float64.toInt : Float64 → Int64
  | .finite q =>
    if -9223372036854775808 ≤ Int.tdiv q.num q.den ∧
        Int.tdiv q.num q.den < 9223372036854775808
    then Int64.ofInt (Int.tdiv q.num q.den)
    else Int64.ofInt (-9223372036854775808)
  | _ => Int64.ofInt (-9223372036854775808)

/-- Ways in which a call does not produce its value: the two runtime panics the
program can raise, and the error values of the two collaborators whose errors
`computeRPM` returns. -/
inductive Fault
  | divideByZero
  | indexOutOfRange
  | readError
  | plotError
  deriving DecidableEq, Repr

instance instDecidableEqExcept {ε α : Type} [DecidableEq ε] [DecidableEq α] :
    DecidableEq (Except ε α)
  | .ok a, .ok b => if h : a = b then isTrue (by rw [h]) else isFalse (by intro h'; cases h'; exact h rfl)
  | .error a, .error b =>
    if h : a = b then isTrue (by rw [h]) else isFalse (by intro h'; cases h'; exact h rfl)
  | .ok _, .error _ => isFalse (by intro h; cases h)
  | .error _, .ok _ => isFalse (by intro h; cases h)

/-- The interface `RPMProvider` of `main.go`: `Step() int` mutates the receiver,
`Done() bool` only reads it. -/
class RPMProvider (σ : Type) where
  Step : σ → Except Fault (Int64 × σ)
  Done : σ → Bool

/-! ## InterpolateRPM -/

/-- The struct `InterpolateRPM`; `current` is the unexported cursor, zero in a
freshly built value, the number of `Step` calls made so far. -/
structure InterpolateRPM where
  Start : Int64
  End : Int64
  Steps : Int64
  current : Int := 0
  deriving DecidableEq

/-- The method `(*InterpolateRPM).Step`.  Go's integer `/` truncates toward zero and
panics on a zero divisor. -/
def InterpolateRPM.Step (ir : InterpolateRPM) : Except Fault (Int64 × InterpolateRPM) :=
  if ir.Steps = 0 then .error .divideByZero
  else
    let stepSize := (ir.End - ir.Start) / ir.Steps
    let rpm := ir.Start + stepSize * Int64.ofInt ir.current
    .ok (rpm, { ir with current := ir.current + 1 })

/-- The method `(*InterpolateRPM).Done`. -/
def InterpolateRPM.Done (ir : InterpolateRPM) : Bool :=
  decide (ir.current ≥ ir.Steps.toInt)

instance : RPMProvider InterpolateRPM where
  Step := InterpolateRPM.Step
  Done := InterpolateRPM.Done

/-! ## SeqRPM -/

/-- The struct `SeqRPM`.  The children are held by pointer in Go, so a child's new
state is written back into the list.  The cursor starts at zero and is only ever
incremented, so it is a natural number. -/
structure SeqRPM (σ : Type) where
  Providers : List σ
  current : Nat := 0
  deriving DecidableEq

/-- The method `(*SeqRPM).Step`.  Indexing past the end of the slice panics. -/
def SeqRPM.Step {σ : Type} [RPMProvider σ] (sr : SeqRPM σ) : Except Fault (Int64 × SeqRPM σ) :=
  match sr.Providers[sr.current]? with
  | none => .error .indexOutOfRange
  | some p =>
    match RPMProvider.Step p with
    | .error e => .error e
    | .ok (rpm, p') =>
      .ok (rpm, { Providers := sr.Providers.set sr.current p',
                  current := if RPMProvider.Done p' then sr.current + 1 else sr.current })

/-- The method `(*SeqRPM).Done`. -/
def SeqRPM.Done {σ : Type} (sr : SeqRPM σ) : Bool :=
  decide (sr.current ≥ sr.Providers.length)

instance {σ : Type} [RPMProvider σ] : RPMProvider (SeqRPM σ) where
  Step := SeqRPM.Step
  Done := SeqRPM.Done

/-! ## EMARPM and JitterRPM -/

/-- The struct `EMARPM`; `lastRPM` is the unexported smoothed value, zero in a freshly
built value. -/
structure EMARPM (σ : Type) where
  Provider : σ
  Alpha : Float64
  lastRPM : Float64 := .finite 0

/-- The method `(*EMARPM).Step`. -/
def EMARPM.Step {σ : Type} [RPMProvider σ] (r : EMARPM σ) : Except Fault (Int64 × EMARPM σ) :=
  match RPMProvider.Step r.Provider with
  | .error e => .error e
  | .ok (rpm, p') =>
    let newRPM := Float64.ofInt rpm.toInt * r.Alpha + (1 - r.Alpha) * r.lastRPM
    .ok (newRPM.toInt, { r with Provider := p', lastRPM := newRPM })

/-- The method `(*EMARPM).Done`. -/
def EMARPM.Done {σ : Type} [RPMProvider σ] (r : EMARPM σ) : Bool :=
  RPMProvider.Done r.Provider

instance {σ : Type} [RPMProvider σ] : RPMProvider (EMARPM σ) where
  Step := EMARPM.Step
  Done := EMARPM.Done

/-- The struct `JitterRPM`.  The process-wide random source read by
`rand.NormFloat64()` is the stream `normFloat64` together with the number of draws
already taken from it. -/
structure JitterRPM (σ : Type) where
  Provider : σ
  JitterStdDev : Int64
  normFloat64 : Nat → Float64
  draws : Nat := 0

/-- The method `(*JitterRPM).Step`. -/
def JitterRPM.Step {σ : Type} [RPMProvider σ] (jr : JitterRPM σ) :
    Except Fault (Int64 × JitterRPM σ) :=
  match RPMProvider.Step jr.Provider with
  | .error e => .error e
  | .ok (rpm, p') =>
    .ok (rpm + (jr.normFloat64 jr.draws * Float64.ofInt jr.JitterStdDev.toInt).toInt,
         { jr with Provider := p', draws := jr.draws + 1 })

/-- The method `(*JitterRPM).Done`. -/
def JitterRPM.Done {σ : Type} [RPMProvider σ] (jr : JitterRPM σ) : Bool :=
  RPMProvider.Done jr.Provider

instance {σ : Type} [RPMProvider σ] : RPMProvider (JitterRPM σ) where
  Step := JitterRPM.Step
  Done := JitterRPM.Done

/-! ## Driving a provider -/

/-- The first `n` calls of `Step` on a provider, in order: the values returned and the
provider afterwards. -/
def stepN {σ : Type} [RPMProvider σ] : Nat → σ → Except Fault (List Int64 × σ)
  | 0, s => .ok ([], s)
  | n + 1, s =>
    match RPMProvider.Step s with
    | .error e => .error e
    | .ok (v, s') =>
      match stepN n s' with
      | .error e => .error e
      | .ok (vs, s'') => .ok (v :: vs, s'')

/-- The loop `for !rpmProvider.Done() { newRPM := rpmProvider.Step(); ... }` of
`playAt`, as far as the provider is concerned: the values of `newRPM` in order and the
provider when the loop exits.  `none` means the loop is still running after `fuel`
iterations. -/
def runUntilDone {σ : Type} [RPMProvider σ] :
    Nat → σ → Option (Except Fault (List Int64 × σ))
  | fuel, s =>
    if RPMProvider.Done s then some (.ok ([], s))
    else
      match fuel with
      | 0 => none
      | fuel + 1 =>
        match RPMProvider.Step s with
        | .error e => some (.error e)
        | .ok (newRPM, s') =>
          match runUntilDone fuel s' with
          | none => none
          | some (.error e) => some (.error e)
          | some (.ok (vs, s'')) => some (.ok (newRPM :: vs, s''))

/-- The resample ratio `playAt` computes for one tick:
`float64(newRPM) / float64(origRPM)`. -/
def ratio (newRPM origRPM : Int) : ℚ :=
  (newRPM : ℚ) / (origRPM : ℚ)

/-- The gain `playAt` sets for one tick: `ratio - 1`. -/
def gain (newRPM origRPM : Int) : ℚ :=
  ratio newRPM origRPM - 1

/-- The provider `playAt` builds: an exponential moving average over a sequence of
four ramps. -/
def playAt.rpmProvider : EMARPM (SeqRPM InterpolateRPM) :=
  { Provider :=
      { Providers :=
          [ { Start := 1300, End := 6500, Steps := 1000 },
            { Start := 6500, End := 6500, Steps := 500 },
            { Start := 6500, End := 1300, Steps := 1000 },
            { Start := 1300, End := 1300, Steps := 500 } ] },
    Alpha := Float64.round (1 / 100) }

/-! ## computeRPM -/

/-- A `complex128` value. -/
structure Complex128 where
  re : Float64
  im : Float64
  deriving DecidableEq

instance : Add Complex128 where
  add a b := { re := a.re + b.re, im := a.im + b.im }

instance : Zero Complex128 where
  zero := { re := 0, im := 0 }

/-- What `computeRPM` uses of the value `wav.New` returns: the header field
`SampleRate` (a `uint32`), the sample count `Samples` (never negative), and the sample
data not yet consumed from the reader.  A `float32` sample is the `float64` it converts
to. -/
structure Wav where
  SampleRate : Nat
  Samples : Nat
  data : List Float64

/-- The library call `w.ReadFloats(n)`: the next `n` samples, or an error when the
reader holds fewer. -/
def Wav.ReadFloats (w : Wav) (n : Nat) : Except Fault (List Float64 × Wav) :=
  if n ≤ w.data.length then .ok (w.data.take n, { w with data := w.data.drop n })
  else .error .readError

/-- The function `f32ToF64`. -/
def f32ToF64 (xs : List Float64) : List Float64 :=
  xs.map fun v => v

/-- The loop `for j, v := range out { analysis[j] += v }`, from index `j` on.  Writing
past the end of `analysis` panics. -/
def accumulate : Nat → List Complex128 → List Complex128 → Except Fault (List Complex128)
  | _, [], analysis => .ok analysis
  | j, v :: out, analysis =>
    match analysis[j]? with
    | none => .error .indexOutOfRange
    | some a => accumulate (j + 1) out (analysis.set j (a + v))

/-- The body of the loop `for i := 0; i < w.Samples/windowSize; i++`, run for the
`n` iterations that are left. -/
def readWindows (FFTReal : List Float64 → List Complex128) (windowSize : Nat) :
    Nat → Wav → List Complex128 → Except Fault (List Complex128 × Wav)
  | 0, w, analysis => .ok (analysis, w)
  | n + 1, w, analysis =>
    match w.ReadFloats windowSize with
    | .error e => .error e
    | .ok (data, w') =>
      match accumulate 0 (FFTReal (f32ToF64 data)) analysis with
      | .error e => .error e
      | .ok analysis' => readWindows FFTReal windowSize n w' analysis'

/-- The local variables the peak scan of `computeRPM` updates. -/
structure Peak where
  maxRPM : Float64 := .finite 0
  maxValue : Float64 := .finite 0
  points : List (Float64 × Float64) := []

/-- The candidate RPM of bin `i`:
`float64(w.SampleRate) / float64(windowSize) * float64(i) * 60`. -/
def binRPM (sampleRate windowSize i : Nat) : Float64 :=
  Float64.ofInt sampleRate / Float64.ofInt windowSize * Float64.ofInt i * 60

/-- The loop `for i, freq := range analysis` of `computeRPM`, from bin `i` on.  The
angle `theta` is computed by the source and never used. -/
def scan (cmplxAbs : Complex128 → Float64) (sampleRate windowSize : Nat) (max : Int64) :
    Nat → List Complex128 → Peak → Peak
  | _, [], st => st
  | i, freq :: rest, st =>
    if i = 0 then scan cmplxAbs sampleRate windowSize max (i + 1) rest st
    else
      let r := cmplxAbs freq
      let rpm := binRPM sampleRate windowSize i
      if rpm > Float64.ofInt max.toInt then st
      else
        scan cmplxAbs sampleRate windowSize max (i + 1) rest
          { points := st.points ++ [(rpm, r)],
            maxValue := if r > st.maxValue then r else st.maxValue,
            maxRPM := if r > st.maxValue then rpm else st.maxRPM }

/-- The window size `computeRPM` chooses: `w.Samples`, lowered to `w.SampleRate` when
that is smaller. -/
def windowSizeOf (w : Wav) : Nat :=
  if w.SampleRate < w.Samples then w.SampleRate else w.Samples

/-- The function `computeRPM`, from the point where the file is open and decoded.
`FFTReal` is the FFT of the DSP library, `cmplxAbs` the modulus returned by
`cmplx.Polar`, and `plot` tells whether the charting calls succeed on the points.
The integer division `w.Samples/windowSize` panics on a zero divisor. -/
def computeRPM (FFTReal : List Float64 → List Complex128) (cmplxAbs : Complex128 → Float64)
    (plot : List (Float64 × Float64) → Bool) (w : Wav) (max : Int64) : Except Fault Int64 :=
  let windowSize := windowSizeOf w
  let analysis : List Complex128 := List.replicate windowSize 0
  if windowSize = 0 then .error .divideByZero
  else
    match readWindows FFTReal windowSize (w.Samples / windowSize) w analysis with
    | .error e => .error e
    | .ok (analysis, _) =>
      let analysis := analysis.take (analysis.length / 2)
      let st := scan cmplxAbs w.SampleRate windowSize max 0 analysis {}
      if plot st.points then .ok st.maxRPM.toInt
      else .error .plotError

/-! ## Vocabulary of the statements -/

/-- The value a ramp returns when its cursor is `k`. -/
def InterpolateRPM.valueAt (ir : InterpolateRPM) (k : Int) : Int64 :=
  ir.Start + (ir.End - ir.Start) / ir.Steps * Int64.ofInt k

/-- The values a ramp returns on its first `n` calls when its cursor is `c`. -/
def rampValues (s e N : Int64) (c : Int) (n : Nat) : List Int64 :=
  (List.range n).map fun j : Nat => s + (e - s) / N * Int64.ofInt (c + j)

/-- A provider type keeps completion when no successful Step takes a Done provider to
one that is not Done. -/
def CompletionPermanent (σ : Type) [RPMProvider σ] : Prop :=
  ∀ (s s' : σ) (v : Int64), RPMProvider.Step s = .ok (v, s') →
    RPMProvider.Done s = true → RPMProvider.Done s' = true

/-- What the peak scan has established once the bins below `i` are dealt with: the
running maximum is zero or positive, no bin met so far exceeds it, and either nothing has
been recorded yet or the running maximum is the positive magnitude of a bin met so far,
whose candidate RPM is the running peak. -/
def ScanInv (cmplxAbs : Complex128 → Float64) (sampleRate windowSize : Nat)
    (bins : List Complex128) (i : Nat) (st : Peak) : Prop :=
  (st.maxValue = .finite 0 ∨ Float64.finite 0 < st.maxValue) ∧
  (∀ j c, 1 ≤ j → j < i → bins[j]? = some c → ¬ (st.maxValue < cmplxAbs c)) ∧
  ((st.maxRPM = .finite 0 ∧ st.maxValue = .finite 0) ∨
    ∃ k c, 1 ≤ k ∧ k < i ∧ bins[k]? = some c ∧ cmplxAbs c = st.maxValue ∧
      Float64.finite 0 < cmplxAbs c ∧ st.maxRPM = binRPM sampleRate windowSize k)

/-- A stand-in for the FFT collaborator that returns one bin per sample. -/
def sampleFFT (xs : List Float64) : List Complex128 :=
  xs.map fun x => { re := x, im := .finite 0 }

/-- A stand-in for the modulus collaborator: the size of the real part. -/
def sampleAbs (c : Complex128) : Float64 :=
  match c.re with
  | .finite q => .finite |q|
  | .inf _ => .inf false
  | .nan => .nan

/-- Sample data of `n` samples alternating 0 and 1. -/
def sampleTone (n : Nat) : List Float64 :=
  (List.range n).map fun i => if i % 2 = 1 then .finite 1 else .finite 0

/-- A decoded source of 24 samples at a sample rate of 98. -/
def sampleWav : Wav :=
  { SampleRate := 98, Samples := 24, data := sampleTone 24 }

/-! ## Lemmas on Int64 -/

theorem wrap64_of_range (x : Int) (h1 : -9223372036854775808 ≤ x)
    (h2 : x < 9223372036854775808) : wrap64 x = x := by
  unfold wrap64; omega

theorem wrap64_congr (x y : Int) (h : (x - y) % 18446744073709551616 = 0) :
    wrap64 x = wrap64 y := by
  unfold wrap64; omega

theorem wrap64_eq_add_mul (x : Int) : ∃ c : Int, wrap64 x = x + 18446744073709551616 * c :=
  ⟨-((x + 9223372036854775808) / 18446744073709551616), by unfold wrap64; omega⟩

theorem wrap64_add_mul (s q k : Int) :
    wrap64 (s + wrap64 (q * wrap64 k)) = wrap64 (s + q * k) := by
  obtain ⟨c1, h1⟩ := wrap64_eq_add_mul k
  obtain ⟨c2, h2⟩ := wrap64_eq_add_mul (q * wrap64 k)
  apply wrap64_congr
  rw [h2, h1]
  have : s + (q * (k + 18446744073709551616 * c1) + 18446744073709551616 * c2) - (s + q * k)
      = 18446744073709551616 * (q * c1 + c2) := by ring
  rw [this]
  exact Int.mul_emod_right _ _

theorem Int64.ext_toInt {a b : Int64} (h : a.toInt = b.toInt) : a = b := by
  cases a; cases b; simp only [Int64.mk.injEq]; exact h

theorem Int64.toInt_ofInt (x : Int) : (Int64.ofInt x).toInt = wrap64 x := rfl

theorem Int64.toInt_add (a b : Int64) : (a + b).toInt = wrap64 (a.toInt + b.toInt) := rfl

theorem Int64.toInt_sub (a b : Int64) : (a - b).toInt = wrap64 (a.toInt - b.toInt) := rfl

theorem Int64.toInt_mul (a b : Int64) : (a * b).toInt = wrap64 (a.toInt * b.toInt) := rfl

theorem Int64.toInt_div (a b : Int64) : (a / b).toInt = wrap64 (Int.tdiv a.toInt b.toInt) := rfl

theorem Int64.toInt_zero : (0 : Int64).toInt = 0 := by decide

theorem Int64.toInt_one : (1 : Int64).toInt = 1 := by decide

theorem Int64.le_iff (a b : Int64) : a ≤ b ↔ a.toInt ≤ b.toInt := Iff.rfl

theorem Int64.lt_iff (a b : Int64) : a < b ↔ a.toInt < b.toInt := Iff.rfl

theorem Int64.ne_zero_of_one_le (n : Int64) (h : 1 ≤ n) : n ≠ 0 := by
  intro h0
  rw [Int64.le_iff, Int64.toInt_one, h0, Int64.toInt_zero] at h
  omega

theorem Int64.one_le_toInt (n : Int64) (h : 1 ≤ n) : 1 ≤ n.toInt := by
  rw [Int64.le_iff, Int64.toInt_one] at h
  exact h

/-- Truncated division by a positive divisor never overshoots: the quotient and its
multiple have the sign of the dividend and are no larger in size. -/
theorem tdiv_mul_bounds (a b : Int) (hb : 0 < b) :
    (0 ≤ a → 0 ≤ Int.tdiv a b ∧ Int.tdiv a b * b ≤ a ∧ Int.tdiv a b ≤ a) ∧
    (a ≤ 0 → Int.tdiv a b ≤ 0 ∧ a ≤ Int.tdiv a b * b ∧ a ≤ Int.tdiv a b) := by
  have key : ∀ x : Int, 0 ≤ x →
      0 ≤ Int.tdiv x b ∧ Int.tdiv x b * b ≤ x ∧ Int.tdiv x b ≤ x := by
    intro x hx
    rw [Int.tdiv_eq_ediv hx hb.le]
    exact ⟨Int.ediv_nonneg hx hb.le, Int.ediv_mul_le x hb.ne', Int.ediv_le_self b hx⟩
  refine ⟨key a, fun ha => ?_⟩
  have h := key (-a) (by omega)
  rw [Int.neg_tdiv] at h
  have : -(Int.tdiv a b) * b = -(Int.tdiv a b * b) := by ring
  refine ⟨by omega, by omega, by omega⟩

/-- The step size of a ramp with a positive step count is the truncated quotient of
the wrapped difference, and multiples of it by less than the step count stay short of
that difference. -/
theorem stepSize_bounds (s e n : Int64) (hn : 1 ≤ n) (j : Int) (hj0 : 0 ≤ j)
    (hj : j < n.toInt) :
    ((e - s) / n).toInt = Int.tdiv (e - s).toInt n.toInt ∧
    (0 ≤ (e - s).toInt → 0 ≤ ((e - s) / n).toInt ∧ 0 ≤ ((e - s) / n).toInt * j ∧
      ((e - s) / n).toInt * j + ((e - s) / n).toInt ≤ (e - s).toInt) ∧
    ((e - s).toInt ≤ 0 → ((e - s) / n).toInt ≤ 0 ∧ ((e - s) / n).toInt * j ≤ 0 ∧
      (e - s).toInt ≤ ((e - s) / n).toInt * j + ((e - s) / n).toInt) := by
  have hn1 := Int64.one_le_toInt n hn
  obtain ⟨hpos, hneg⟩ := tdiv_mul_bounds (e - s).toInt n.toInt (by omega)
  have hlo := (e - s).lo
  have hhi := (e - s).hi
  have hq : ((e - s) / n).toInt = Int.tdiv (e - s).toInt n.toInt := by
    rw [Int64.toInt_div]
    apply wrap64_of_range
    · rcases le_total 0 (e - s).toInt with h | h
      · have := hpos h; omega
      · have := hneg h; omega
    · rcases le_total 0 (e - s).toInt with h | h
      · have := hpos h; omega
      · have := hneg h; omega
  rw [hq]
  refine ⟨rfl, fun h => ?_, fun h => ?_⟩
  · obtain ⟨h0, hle, -⟩ := hpos h
    have h1 : Int.tdiv (e - s).toInt n.toInt * j ≤ Int.tdiv (e - s).toInt n.toInt * (n.toInt - 1) :=
      Int.mul_le_mul_of_nonneg_left (by omega) h0
    have h2 : 0 ≤ Int.tdiv (e - s).toInt n.toInt * j := Int.mul_nonneg h0 hj0
    have h3 : Int.tdiv (e - s).toInt n.toInt * (n.toInt - 1)
        = Int.tdiv (e - s).toInt n.toInt * n.toInt - Int.tdiv (e - s).toInt n.toInt := by ring
    exact ⟨h0, h2, by omega⟩
  · obtain ⟨h0, hle, -⟩ := hneg h
    have h1 : Int.tdiv (e - s).toInt n.toInt * (n.toInt - 1) ≤ Int.tdiv (e - s).toInt n.toInt * j :=
      Int.mul_le_mul_of_nonpos_left h0 (by omega)
    have h2 : Int.tdiv (e - s).toInt n.toInt * j ≤ 0 := Int.mul_nonpos_of_nonpos_of_nonneg h0 hj0
    have h3 : Int.tdiv (e - s).toInt n.toInt * (n.toInt - 1)
        = Int.tdiv (e - s).toInt n.toInt * n.toInt - Int.tdiv (e - s).toInt n.toInt := by ring
    exact ⟨h0, h2, by omega⟩

/-- The integer a ramp value denotes: the exact value, reduced to 64 bits. -/
theorem InterpolateRPM.toInt_value (s e n : Int64) (k : Int) :
    (s + (e - s) / n * Int64.ofInt k).toInt = wrap64 (s.toInt + ((e - s) / n).toInt * k) := by
  rw [Int64.toInt_add, Int64.toInt_mul, Int64.toInt_ofInt, wrap64_add_mul]

/-! ## Lemmas on InterpolateRPM -/

theorem InterpolateRPM.Step_ok (ir : InterpolateRPM) (h : ir.Steps ≠ 0) :
    ir.Step = .ok (ir.valueAt ir.current, { ir with current := ir.current + 1 }) := by
  simp [InterpolateRPM.Step, InterpolateRPM.valueAt, h]

theorem InterpolateRPM.Done_iff (ir : InterpolateRPM) :
    ir.Done = true ↔ ir.Steps.toInt ≤ ir.current := by
  simp [InterpolateRPM.Done]

theorem InterpolateRPM.Done_eq_false_iff (ir : InterpolateRPM) :
    ir.Done = false ↔ ir.current < ir.Steps.toInt := by
  simp [InterpolateRPM.Done]

theorem InterpolateRPM.stepN_ok (n : Nat) (ir : InterpolateRPM) (h : ir.Steps ≠ 0) :
    stepN n ir = .ok ((List.range n).map (fun j : Nat => ir.valueAt (ir.current + j)),
      { ir with current := ir.current + n }) := by
  induction n generalizing ir with
  | zero => simp [stepN]
  | succ n ih =>
    have hs : RPMProvider.Step ir
        = .ok (ir.valueAt ir.current, { ir with current := ir.current + 1 }) :=
      InterpolateRPM.Step_ok ir h
    have ih' := ih { ir with current := ir.current + 1 } h
    simp only [stepN, hs, ih']
    simp only [List.range_succ_eq_map, List.map_cons, List.map_map]
    congr 2
    · congr 1
      · simp
      · apply List.map_congr_left
        intro j _
        simp only [Function.comp, InterpolateRPM.valueAt]
        congr 3
        push_cast
        ring
    · congr 1
      push_cast
      ring

/-! ## Claims on InterpolateRPM -/

/-- C3, as stated, fails.  On the ramp from 10 down to 3 in 2 steps the second call
(k = 1) returns 7, while start + floor((end - start) / steps) * k is 6.  On the ramp
from the smallest to the largest `int` in 2 steps the difference wraps and the second
call returns the smallest `int`, while the formula gives -1. -/
theorem InterpolateRPM.floor_formula_fails :
    (stepN 2 (⟨10, 3, 2, 0⟩ : InterpolateRPM)).map Prod.fst = .ok [10, 7] ∧
    (10 : Int) + Int.fdiv (3 - 10) 2 * 1 = 6 ∧
    (stepN 2 (⟨-9223372036854775808, 9223372036854775807, 2, 0⟩ : InterpolateRPM)).map Prod.fst
      = .ok [-9223372036854775808, -9223372036854775808] ∧
    (-9223372036854775808 : Int)
      + Int.fdiv (9223372036854775807 - (-9223372036854775808)) 2 * 1 = -1 := by
  decide

/-- C3, amended: for all `int` values start and end and every steps >= 1, after k
calls the cursor of a fresh ramp is k, and the next call returns
start + (end - start) / steps * k evaluated in wrapping 64-bit arithmetic with the
quotient truncated toward zero, and sets the cursor to k + 1; Done holds exactly when
the cursor is >= steps.  When end - start does not overflow, the value returned is
exactly start + q * k, with q the truncated quotient, for every k <= steps and for every
k for which that number fits; and q is the floor of the quotient whenever end >= start
or steps divides end - start. -/
theorem InterpolateRPM.kth_step_truncates (start stop steps : Int64) (hsteps : 1 ≤ steps)
    (k : Nat) :
    (∃ vs, stepN k (⟨start, stop, steps, 0⟩ : InterpolateRPM)
        = .ok (vs, ⟨start, stop, steps, k⟩)) ∧
    InterpolateRPM.Step ⟨start, stop, steps, k⟩
        = .ok (start + (stop - start) / steps * Int64.ofInt k, ⟨start, stop, steps, k + 1⟩) ∧
    (InterpolateRPM.Done ⟨start, stop, steps, k⟩ = true ↔ steps.toInt ≤ (k : Int)) ∧
    (-9223372036854775808 ≤ stop.toInt - start.toInt →
      stop.toInt - start.toInt < 9223372036854775808 →
      ((k : Int) ≤ steps.toInt ∨
        (-9223372036854775808 ≤
            start.toInt + Int.tdiv (stop.toInt - start.toInt) steps.toInt * k ∧
          start.toInt + Int.tdiv (stop.toInt - start.toInt) steps.toInt * k
            < 9223372036854775808)) →
      (start + (stop - start) / steps * Int64.ofInt k).toInt
        = start.toInt + Int.tdiv (stop.toInt - start.toInt) steps.toInt * k) ∧
    (start ≤ stop ∨ steps.toInt ∣ stop.toInt - start.toInt →
      Int.tdiv (stop.toInt - start.toInt) steps.toInt
        = Int.fdiv (stop.toInt - start.toInt) steps.toInt) := by
  have h0 : steps ≠ 0 := Int64.ne_zero_of_one_le steps hsteps
  have hn1 := Int64.one_le_toInt steps hsteps
  refine ⟨?_, ?_, ?_, ?_, ?_⟩
  · have h := InterpolateRPM.stepN_ok k ⟨start, stop, steps, 0⟩ h0
    exact ⟨_, by simpa using h⟩
  · simpa [InterpolateRPM.valueAt] using InterpolateRPM.Step_ok ⟨start, stop, steps, k⟩ h0
  · simp [InterpolateRPM.Done]
  · intro hlo hhi hk
    have hd : (stop - start).toInt = stop.toInt - start.toInt := by
      rw [Int64.toInt_sub]; exact wrap64_of_range _ hlo hhi
    have hq := (stepSize_bounds start stop steps hsteps 0 (le_refl _) (by omega)).1
    rw [hd] at hq
    rw [InterpolateRPM.toInt_value, hq]
    apply wrap64_of_range
    · rcases hk with hk | hk
      · obtain ⟨hpos, hneg⟩ := tdiv_mul_bounds (stop.toInt - start.toInt) steps.toInt (by omega)
        have hs := start.lo
        have he := stop.lo
        rcases le_total 0 (stop.toInt - start.toInt) with h | h
        · obtain ⟨hq0, -, -⟩ := hpos h
          have := Int.mul_nonneg hq0 (Int.ofNat_nonneg k)
          omega
        · obtain ⟨hq0, hle, -⟩ := hneg h
          have h1 : Int.tdiv (stop.toInt - start.toInt) steps.toInt * steps.toInt
              ≤ Int.tdiv (stop.toInt - start.toInt) steps.toInt * k :=
            Int.mul_le_mul_of_nonpos_left hq0 hk
          omega
      · exact hk.1
    · rcases hk with hk | hk
      · obtain ⟨hpos, hneg⟩ := tdiv_mul_bounds (stop.toInt - start.toInt) steps.toInt (by omega)
        have hs := start.hi
        have he := stop.hi
        rcases le_total 0 (stop.toInt - start.toInt) with h | h
        · obtain ⟨hq0, hle, -⟩ := hpos h
          have h1 : Int.tdiv (stop.toInt - start.toInt) steps.toInt * k
              ≤ Int.tdiv (stop.toInt - start.toInt) steps.toInt * steps.toInt :=
            Int.mul_le_mul_of_nonneg_left hk hq0
          omega
        · obtain ⟨hq0, -, -⟩ := hneg h
          have := Int.mul_nonpos_of_nonpos_of_nonneg hq0 (Int.ofNat_nonneg k)
          omega
      · exact hk.2
  · rintro (h | h)
    · rw [Int64.le_iff] at h
      rw [Int.tdiv_eq_ediv (by omega) (by omega), Int.fdiv_eq_ediv _ (by omega)]
    · rw [Int.tdiv_eq_ediv_of_dvd h, Int.fdiv_eq_ediv _ (by omega)]

theorem InterpolateRPM.kth_step_truncates_witness :
    (1 : Int64) ≤ 2 ∧
    ((∃ vs, stepN 1 (⟨10, 3, 2, 0⟩ : InterpolateRPM) = .ok (vs, ⟨10, 3, 2, (1 : Nat)⟩)) ∧
    InterpolateRPM.Step ⟨10, 3, 2, (1 : Nat)⟩
        = .ok (10 + (3 - 10) / 2 * Int64.ofInt (1 : Nat), ⟨10, 3, 2, (1 : Nat) + 1⟩) ∧
    (InterpolateRPM.Done ⟨10, 3, 2, (1 : Nat)⟩ = true ↔ (2 : Int64).toInt ≤ ((1 : Nat) : Int)) ∧
    (-9223372036854775808 ≤ (3 : Int64).toInt - (10 : Int64).toInt →
      (3 : Int64).toInt - (10 : Int64).toInt < 9223372036854775808 →
      (((1 : Nat) : Int) ≤ (2 : Int64).toInt ∨
        (-9223372036854775808 ≤
            (10 : Int64).toInt
              + Int.tdiv ((3 : Int64).toInt - (10 : Int64).toInt) (2 : Int64).toInt * (1 : Nat) ∧
          (10 : Int64).toInt
              + Int.tdiv ((3 : Int64).toInt - (10 : Int64).toInt) (2 : Int64).toInt * (1 : Nat)
            < 9223372036854775808)) →
      ((10 : Int64) + (3 - 10) / 2 * Int64.ofInt (1 : Nat)).toInt
        = (10 : Int64).toInt
          + Int.tdiv ((3 : Int64).toInt - (10 : Int64).toInt) (2 : Int64).toInt * (1 : Nat)) ∧
    ((10 : Int64) ≤ 3 ∨ (2 : Int64).toInt ∣ (3 : Int64).toInt - (10 : Int64).toInt →
      Int.tdiv ((3 : Int64).toInt - (10 : Int64).toInt) (2 : Int64).toInt
        = Int.fdiv ((3 : Int64).toInt - (10 : Int64).toInt) (2 : Int64).toInt)) :=
  ⟨by decide, InterpolateRPM.kth_step_truncates 10 3 2 (by decide) 1⟩

/-- C4: for all `int` values start, end and every steps >= 1, calling Step steps times
on a fresh ramp succeeds and yields exactly steps values, the first of which is start;
Done is false on the fresh ramp and after each of the first steps - 1 calls, and true
after the steps-th call. -/
theorem InterpolateRPM.steps_calls (start stop steps : Int64) (hsteps : 1 ≤ steps) :
    ∃ vs final,
      stepN steps.toInt.toNat (⟨start, stop, steps, 0⟩ : InterpolateRPM) = .ok (vs, final) ∧
      (vs.length : Int) = steps.toInt ∧ vs.head? = some start ∧ final.Done = true ∧
      ∀ j : Nat, (j : Int) < steps.toInt →
        ∃ vj sj, stepN j (⟨start, stop, steps, 0⟩ : InterpolateRPM) = .ok (vj, sj) ∧
          sj.Done = false := by
  have h0 : steps ≠ 0 := Int64.ne_zero_of_one_le steps hsteps
  have hn1 := Int64.one_le_toInt steps hsteps
  refine ⟨_, _, InterpolateRPM.stepN_ok _ _ h0, ?_, ?_, ?_, ?_⟩
  · simp only [List.length_map, List.length_range]
    omega
  · obtain ⟨n, hn⟩ : ∃ n : Nat, steps.toInt.toNat = n + 1 := ⟨steps.toInt.toNat - 1, by omega⟩
    simp only [hn, List.range_succ_eq_map, List.map_cons, List.head?_cons, Option.some.injEq]
    apply Int64.ext_toInt
    simp only [InterpolateRPM.valueAt]
    rw [InterpolateRPM.toInt_value]
    have h1 := start.lo
    have h2 := start.hi
    simp only [Nat.cast_zero, add_zero, mul_zero]
    exact wrap64_of_range _ h1 h2
  · simp only [InterpolateRPM.Done_iff]
    have : ((steps.toInt.toNat : Nat) : Int) = steps.toInt := by omega
    simp [this]
  · intro j hj
    refine ⟨_, _, InterpolateRPM.stepN_ok _ _ h0, ?_⟩
    simp only [InterpolateRPM.Done_eq_false_iff]
    simpa using hj

theorem InterpolateRPM.steps_calls_witness :
    (1 : Int64) ≤ 3 ∧
    ∃ vs final,
      stepN (3 : Int64).toInt.toNat (⟨1300, 6500, 3, 0⟩ : InterpolateRPM) = .ok (vs, final) ∧
      (vs.length : Int) = (3 : Int64).toInt ∧ vs.head? = some 1300 ∧ final.Done = true ∧
      ∀ j : Nat, (j : Int) < (3 : Int64).toInt →
        ∃ vj sj, stepN j (⟨1300, 6500, 3, 0⟩ : InterpolateRPM) = .ok (vj, sj) ∧
          sj.Done = false :=
  ⟨by decide, InterpolateRPM.steps_calls 1300 6500 3 (by decide)⟩

/-- C10, as stated, fails: on the ramp from -6000000000000000000 to
6000000000000000000 in 2 steps the difference End - Start overflows, and the second
value returned is the smallest `int`, which is below Start and so not between Start and
End. -/
theorem InterpolateRPM.between_fails_on_overflow :
    (stepN 2 (⟨-6000000000000000000, 6000000000000000000, 2, 0⟩ : InterpolateRPM)).map Prod.fst
      = .ok [-6000000000000000000, -9223372036854775808] ∧
    ¬ ((-6000000000000000000 : Int64) ≤ -9223372036854775808) ∧
    (1 : Int64) ≤ 2 ∧ (-6000000000000000000 : Int64) ≠ 6000000000000000000 := by
  decide

/-- C10, amended: a ramp never reaches its End.  For every fresh ramp with Steps >= 1
and Start != End, none of the Steps values returned before Done becomes true equals
End, and when |End - Start| < Steps every one of them equals Start; when End - Start
does not overflow, every one of them lies between Start (inclusive) and End
(exclusive), on either side.  For the ramp from 1300 to 6500 in 1000 steps the last
value returned is 6295. -/
theorem InterpolateRPM.never_reaches_End (start stop steps : Int64) (hsteps : 1 ≤ steps)
    (hne : start ≠ stop) :
    (∃ vs final,
      stepN steps.toInt.toNat (⟨start, stop, steps, 0⟩ : InterpolateRPM) = .ok (vs, final) ∧
      (vs.length : Int) = steps.toInt ∧ final.Done = true ∧
      (∀ j : Nat, (j : Int) < steps.toInt →
        ∃ vj sj, stepN j (⟨start, stop, steps, 0⟩ : InterpolateRPM) = .ok (vj, sj) ∧
          sj.Done = false) ∧
      ∀ v ∈ vs, v ≠ stop ∧
        (|stop.toInt - start.toInt| < steps.toInt → v = start) ∧
        (-9223372036854775808 ≤ stop.toInt - start.toInt →
          stop.toInt - start.toInt < 9223372036854775808 →
          (start < stop → start ≤ v ∧ v < stop) ∧ (stop < start → stop < v ∧ v ≤ start))) ∧
    ∃ vs final, stepN 1000 (⟨1300, 6500, 1000, 0⟩ : InterpolateRPM) = .ok (vs, final) ∧
      vs.getLast? = some 6295 ∧ final.Done = true := by
  have h0 : steps ≠ 0 := Int64.ne_zero_of_one_le steps hsteps
  have hn1 := Int64.one_le_toInt steps hsteps
  have hnhi := steps.hi
  refine ⟨⟨_, _, InterpolateRPM.stepN_ok _ _ h0, ?_, ?_, ?_, ?_⟩,
    ⟨_, _, InterpolateRPM.stepN_ok _ _ (by decide), ?_, by decide⟩⟩
  · simp only [List.length_map, List.length_range]
    omega
  · simp only [InterpolateRPM.Done_iff]
    have : ((steps.toInt.toNat : Nat) : Int) = steps.toInt := by omega
    simp [this]
  · intro j hj
    refine ⟨_, _, InterpolateRPM.stepN_ok _ _ h0, ?_⟩
    simp only [InterpolateRPM.Done_eq_false_iff]
    simpa using hj
  · intro v hv
    simp only [List.mem_map, List.mem_range] at hv
    obtain ⟨j, hj, rfl⟩ := hv
    have hj' : (j : Int) < steps.toInt := by omega
    have hj0 : (0 : Int) ≤ j := Int.ofNat_nonneg j
    obtain ⟨hq, hpos, hneg⟩ := stepSize_bounds start stop steps hsteps j hj0 hj'
    have hP0 : ((stop - start) / steps).toInt = 0 → ((stop - start) / steps).toInt * j = 0 := by
      intro h; rw [h]; simp
    have hd : (stop - start).toInt = wrap64 (stop.toInt - start.toInt) := Int64.toInt_sub _ _
    have hval : (InterpolateRPM.valueAt ⟨start, stop, steps, 0⟩ (0 + (j : Int))).toInt
        = wrap64 (start.toInt + ((stop - start) / steps).toInt * j) := by
      simp only [InterpolateRPM.valueAt, zero_add]
      exact InterpolateRPM.toInt_value start stop steps j
    have hs1 := start.lo
    have hs2 := start.hi
    have he1 := stop.lo
    have he2 := stop.hi
    have hne' : start.toInt ≠ stop.toInt := fun h => hne (Int64.ext_toInt h)
    have hdlo := (stop - start).lo
    have hdhi := (stop - start).hi
    generalize ((stop - start) / steps).toInt * (j : Int) = P at hval hpos hneg hP0
    generalize ((stop - start) / steps).toInt = q at hq hpos hneg hP0
    generalize (stop - start).toInt = d at hq hpos hneg hd hdlo hdhi
    refine ⟨?_, ?_, ?_⟩
    · intro hcon
      have hcon' := congrArg Int64.toInt hcon
      rw [hval] at hcon'
      unfold wrap64 at hcon' hd
      rcases le_total 0 d with h | h
      · obtain ⟨h1, h2, h3⟩ := hpos h
        omega
      · obtain ⟨h1, h2, h3⟩ := hneg h
        omega
    · intro habs
      apply Int64.ext_toInt
      rw [hval]
      have hd' : d = stop.toInt - start.toInt := by
        rw [hd]
        apply wrap64_of_range <;> rcases abs_lt.1 habs with ⟨h1, h2⟩ <;> omega
      have hq0 : q = 0 := by
        rw [hq, hd']
        rcases le_total 0 (stop.toInt - start.toInt) with h | h
        · rw [abs_of_nonneg h] at habs
          exact Int.tdiv_eq_zero_of_lt h habs
        · rw [abs_of_nonpos h] at habs
          have := Int.tdiv_eq_zero_of_lt (a := -(stop.toInt - start.toInt)) (by omega) habs
          rw [Int.neg_tdiv] at this
          omega
      rw [hP0 hq0]
      simp only [add_zero]
      exact wrap64_of_range _ hs1 hs2
    · intro hlo hhi
      have hd' : d = stop.toInt - start.toInt := by
        rw [hd]; exact wrap64_of_range _ hlo hhi
      simp only [Int64.lt_iff, Int64.le_iff, hval]
      unfold wrap64
      constructor
      · intro hlt
        obtain ⟨h1, h2, h3⟩ := hpos (by omega)
        omega
      · intro hgt
        obtain ⟨h1, h2, h3⟩ := hneg (by omega)
        omega
  · rw [show (1000 : Nat) = 999 + 1 from rfl, List.range_succ, List.map_append,
      List.map_singleton, List.getLast?_concat]
    decide

theorem InterpolateRPM.never_reaches_End_witness :
    (1 : Int64) ≤ 4 ∧ (6500 : Int64) ≠ 1300 ∧
    ((∃ vs final,
      stepN (4 : Int64).toInt.toNat (⟨6500, 1300, 4, 0⟩ : InterpolateRPM) = .ok (vs, final) ∧
      (vs.length : Int) = (4 : Int64).toInt ∧ final.Done = true ∧
      (∀ j : Nat, (j : Int) < (4 : Int64).toInt →
        ∃ vj sj, stepN j (⟨6500, 1300, 4, 0⟩ : InterpolateRPM) = .ok (vj, sj) ∧
          sj.Done = false) ∧
      ∀ v ∈ vs, v ≠ 1300 ∧
        (|(1300 : Int64).toInt - (6500 : Int64).toInt| < (4 : Int64).toInt → v = 6500) ∧
        (-9223372036854775808 ≤ (1300 : Int64).toInt - (6500 : Int64).toInt →
          (1300 : Int64).toInt - (6500 : Int64).toInt < 9223372036854775808 →
          ((6500 : Int64) < 1300 → 6500 ≤ v ∧ v < 1300) ∧
            ((1300 : Int64) < 6500 → 1300 < v ∧ v ≤ 6500))) ∧
    ∃ vs final, stepN 1000 (⟨1300, 6500, 1000, 0⟩ : InterpolateRPM) = .ok (vs, final) ∧
      vs.getLast? = some 6295 ∧ final.Done = true) :=
  ⟨by decide, by decide, InterpolateRPM.never_reaches_End 6500 1300 4 (by decide) (by decide)⟩

/-! ## The two-ramp scenario -/

/-- C2, as stated, fails: the three values are 1300, 3900, 6500 (the step size is
(6500 - 1300) / 2 = 2600), not 1300, 4900, 6500. -/
theorem SeqRPM.scenario_not_4900 :
    (stepN 3 (⟨[⟨1300, 6500, 2, 0⟩, ⟨6500, 6500, 1, 0⟩], 0⟩ : SeqRPM InterpolateRPM)).map Prod.fst
      = .ok [1300, 3900, 6500] ∧
    (stepN 3 (⟨[⟨1300, 6500, 2, 0⟩, ⟨6500, 6500, 1, 0⟩], 0⟩ : SeqRPM InterpolateRPM)).map Prod.fst
      ≠ .ok [1300, 4900, 6500] := by
  decide

/-- C2, amended: stepping a fresh Sequence([Interpolate(1300,6500,2),
Interpolate(6500,6500,1)]) returns exactly 1300, 3900, 6500 in that order, three steps
in total; Done is false on the fresh sequence and after the first and the second call,
and true after the third; a fourth call panics. -/
theorem SeqRPM.scenario_steps :
    SeqRPM.Done (⟨[⟨1300, 6500, 2, 0⟩, ⟨6500, 6500, 1, 0⟩], 0⟩ : SeqRPM InterpolateRPM) = false ∧
    stepN 1 (⟨[⟨1300, 6500, 2, 0⟩, ⟨6500, 6500, 1, 0⟩], 0⟩ : SeqRPM InterpolateRPM)
      = .ok ([1300], ⟨[⟨1300, 6500, 2, 1⟩, ⟨6500, 6500, 1, 0⟩], 0⟩) ∧
    SeqRPM.Done (⟨[⟨1300, 6500, 2, 1⟩, ⟨6500, 6500, 1, 0⟩], 0⟩ : SeqRPM InterpolateRPM) = false ∧
    stepN 2 (⟨[⟨1300, 6500, 2, 0⟩, ⟨6500, 6500, 1, 0⟩], 0⟩ : SeqRPM InterpolateRPM)
      = .ok ([1300, 3900], ⟨[⟨1300, 6500, 2, 2⟩, ⟨6500, 6500, 1, 0⟩], 1⟩) ∧
    SeqRPM.Done (⟨[⟨1300, 6500, 2, 2⟩, ⟨6500, 6500, 1, 0⟩], 1⟩ : SeqRPM InterpolateRPM) = false ∧
    stepN 3 (⟨[⟨1300, 6500, 2, 0⟩, ⟨6500, 6500, 1, 0⟩], 0⟩ : SeqRPM InterpolateRPM)
      = .ok ([1300, 3900, 6500], ⟨[⟨1300, 6500, 2, 2⟩, ⟨6500, 6500, 1, 1⟩], 2⟩) ∧
    SeqRPM.Done (⟨[⟨1300, 6500, 2, 2⟩, ⟨6500, 6500, 1, 1⟩], 2⟩ : SeqRPM InterpolateRPM) = true ∧
    runUntilDone 3 (⟨[⟨1300, 6500, 2, 0⟩, ⟨6500, 6500, 1, 0⟩], 0⟩ : SeqRPM InterpolateRPM)
      = some (.ok ([1300, 3900, 6500], ⟨[⟨1300, 6500, 2, 2⟩, ⟨6500, 6500, 1, 1⟩], 2⟩)) ∧
    stepN 4 (⟨[⟨1300, 6500, 2, 0⟩, ⟨6500, 6500, 1, 0⟩], 0⟩ : SeqRPM InterpolateRPM)
      = .error .indexOutOfRange := by
  decide

/-! ## The tick of playAt -/

/-- C6, as stated, fails: a trajectory value of 0 is non-negative and gives the ratio
0, which is not strictly positive. -/
theorem ratio_zero_not_positive : ratio 0 8000 = 0 ∧ ¬ (0 < ratio 0 8000) := by
  simp [ratio]

/-- C6, amended: for every positive baselineRPM and every non-negative trajectory
value rpm, the ratio rpm / baselineRPM is non-negative, and it is strictly positive
exactly when rpm is strictly positive. -/
theorem ratio_nonneg_pos_iff (rpm baselineRPM : Int) (hb : 0 < baselineRPM) (hr : 0 ≤ rpm) :
    0 ≤ ratio rpm baselineRPM ∧ (0 < ratio rpm baselineRPM ↔ 0 < rpm) := by
  have hb' : (0 : ℚ) < (baselineRPM : ℚ) := by exact_mod_cast hb
  have hr' : (0 : ℚ) ≤ (rpm : ℚ) := by exact_mod_cast hr
  refine ⟨div_nonneg hr' hb'.le, ?_⟩
  unfold ratio
  rw [div_pos_iff_of_pos_right hb']
  exact_mod_cast Iff.rfl

theorem ratio_nonneg_pos_iff_witness :
    (0 : Int) < 8000 ∧ (0 : Int) ≤ 1300 ∧
    (0 ≤ ratio 1300 8000 ∧ (0 < ratio 1300 8000 ↔ (0 : Int) < 1300)) :=
  ⟨by decide, by decide, ratio_nonneg_pos_iff 1300 8000 (by decide) (by decide)⟩

/-! ## Lemmas on stepN, runUntilDone and SeqRPM -/

theorem stepN_succ_of_ok {σ : Type} [RPMProvider σ] {n : Nat} {s s1 s2 : σ} {v : Int64}
    {vs : List Int64} (h1 : RPMProvider.Step s = .ok (v, s1)) (h2 : stepN n s1 = .ok (vs, s2)) :
    stepN (n + 1) s = .ok (v :: vs, s2) := by
  simp [stepN, h1, h2]

theorem stepN_succ_inv {σ : Type} [RPMProvider σ] {n : Nat} {s s2 : σ} {ws : List Int64}
    (h : stepN (n + 1) s = .ok (ws, s2)) :
    ∃ v s1 vs, RPMProvider.Step s = .ok (v, s1) ∧ stepN n s1 = .ok (vs, s2) ∧ ws = v :: vs := by
  simp only [stepN] at h
  cases h1 : RPMProvider.Step s with
  | error e => simp [h1] at h
  | ok r =>
    obtain ⟨v, s1⟩ := r
    cases h2 : stepN n s1 with
    | error e => simp [h1, h2] at h
    | ok r2 =>
      obtain ⟨vs, s3⟩ := r2
      simp only [h1, h2, Except.ok.injEq, Prod.mk.injEq] at h
      exact ⟨v, s1, vs, rfl, by rw [h2, h.2], h.1.symm⟩

theorem stepN_add {σ : Type} [RPMProvider σ] (m n : Nat) {s s1 s2 : σ} {vs ws : List Int64}
    (h1 : stepN m s = .ok (vs, s1)) (h2 : stepN n s1 = .ok (ws, s2)) :
    stepN (m + n) s = .ok (vs ++ ws, s2) := by
  induction m generalizing s vs with
  | zero =>
    simp only [stepN, Except.ok.injEq, Prod.mk.injEq] at h1
    obtain ⟨rfl, rfl⟩ := h1
    simpa using h2
  | succ m ih =>
    obtain ⟨v, s', vs', hs, hrest, rfl⟩ := stepN_succ_inv h1
    have := ih hrest
    rw [show m + 1 + n = (m + n) + 1 by omega]
    simpa using stepN_succ_of_ok hs this

theorem runUntilDone_of_stepN {σ : Type} [RPMProvider σ] (n : Nat) (s s' : σ) (vs : List Int64)
    (h : stepN n s = .ok (vs, s')) (hd : RPMProvider.Done s' = true)
    (hnd : ∀ j, j < n → ∀ vj sj, stepN j s = .ok (vj, sj) → RPMProvider.Done sj = false)
    (fuel : Nat) (hf : n ≤ fuel) :
    runUntilDone fuel s = some (.ok (vs, s')) := by
  induction n generalizing s vs fuel with
  | zero =>
    simp only [stepN, Except.ok.injEq, Prod.mk.injEq] at h
    obtain ⟨rfl, rfl⟩ := h
    unfold runUntilDone
    simp [hd]
  | succ n ih =>
    have hs0 : RPMProvider.Done s = false := hnd 0 (by omega) [] s rfl
    obtain ⟨v, s1, vs', hs, hrest, rfl⟩ := stepN_succ_inv h
    obtain ⟨fuel', rfl⟩ : ∃ f, fuel = f + 1 := ⟨fuel - 1, by omega⟩
    have ih' := ih s1 vs' hrest
      (fun j hj vj sj hj' => hnd (j + 1) (by omega) (v :: vj) sj (stepN_succ_of_ok hs hj'))
      fuel' (by omega)
    unfold runUntilDone
    simp [hs0, hs, ih']

theorem set_of_getElem? {α : Type} (l : List α) (i : Nat) (a : α) (h : l[i]? = some a) :
    l.set i a = l := by
  induction l generalizing i with
  | nil => simp
  | cons x xs ih =>
    cases i with
    | zero => simp at h; simp [h]
    | succ i => simp at h; simp [ih i h]

theorem SeqRPM.Step_child {σ : Type} [RPMProvider σ] (sr : SeqRPM σ) (p p' : σ) (v : Int64)
    (hp : sr.Providers[sr.current]? = some p) (hs : RPMProvider.Step p = .ok (v, p')) :
    RPMProvider.Step sr = .ok (v, ⟨sr.Providers.set sr.current p',
      if RPMProvider.Done p' then sr.current + 1 else sr.current⟩) := by
  show SeqRPM.Step sr = _
  simp [SeqRPM.Step, hp, hs]

/-- While the current child keeps running, the sequence returns the child's values and
stays on that child. -/
theorem SeqRPM.stepN_within {σ : Type} [RPMProvider σ] (m : Nat) (sr : SeqRPM σ) (p p' : σ)
    (vs : List Int64) (hp : sr.Providers[sr.current]? = some p)
    (hs : stepN m p = .ok (vs, p'))
    (hnd : ∀ j, 1 ≤ j → j ≤ m → ∀ vj pj, stepN j p = .ok (vj, pj) →
      RPMProvider.Done pj = false) :
    stepN m sr = .ok (vs, ⟨sr.Providers.set sr.current p', sr.current⟩) := by
  induction m generalizing sr p vs with
  | zero =>
    simp only [stepN, Except.ok.injEq, Prod.mk.injEq] at hs
    obtain ⟨rfl, rfl⟩ := hs
    simp [stepN, set_of_getElem? _ _ _ hp]
  | succ m ih =>
    obtain ⟨v, p1, vs', hstep, hrest, rfl⟩ := stepN_succ_inv hs
    have hd1 : RPMProvider.Done p1 = false :=
      hnd 1 (by omega) (by omega) [v] p1 (stepN_succ_of_ok hstep rfl)
    have hsr := SeqRPM.Step_child sr p p1 v hp hstep
    simp only [hd1, Bool.false_eq_true, if_false] at hsr
    have hlt : sr.current < sr.Providers.length := by
      rcases List.getElem?_eq_some_iff.1 hp with ⟨h, _⟩
      exact h
    have ih' := ih ⟨sr.Providers.set sr.current p1, sr.current⟩ p1 vs'
      (by simp [List.getElem?_set_self hlt]) hrest
      (fun j hj1 hj vj pj hj' => hnd (j + 1) (by omega) (by omega) (v :: vj) pj
        (stepN_succ_of_ok hstep hj'))
    simp only [List.set_set] at ih'
    exact stepN_succ_of_ok hsr ih'

theorem InterpolateRPM.stepN_ramp (s e N : Int64) (c : Int) (hN : N ≠ 0) (n : Nat) :
    stepN n (⟨s, e, N, c⟩ : InterpolateRPM) = .ok (rampValues s e N c n, ⟨s, e, N, c + n⟩) :=
  InterpolateRPM.stepN_ok n ⟨s, e, N, c⟩ hN

theorem rampValues_length (s e N : Int64) (c : Int) (n : Nat) :
    (rampValues s e N c n).length = n := by
  simp [rampValues]

theorem rampValues_succ (s e N : Int64) (c : Int) (n : Nat) :
    rampValues s e N c (n + 1)
      = rampValues s e N c n ++ [s + (e - s) / N * Int64.ofInt (c + n)] := by
  simp [rampValues, List.range_succ]

/-- A sequence whose current child is a ramp with more than `j` calls left stays on
that child for `j` calls. -/
theorem SeqRPM.stepN_on_ramp (sr : SeqRPM InterpolateRPM) (s e N : Int64) (c : Int) (j : Nat)
    (hp : sr.Providers[sr.current]? = some ⟨s, e, N, c⟩) (hN : N ≠ 0) (h : c + j < N.toInt) :
    stepN j sr = .ok (rampValues s e N c j,
      ⟨sr.Providers.set sr.current ⟨s, e, N, c + j⟩, sr.current⟩) := by
  refine SeqRPM.stepN_within j sr _ _ _ hp (InterpolateRPM.stepN_ramp s e N c hN j) ?_
  intro i hi1 hij vj pj hpj
  rw [InterpolateRPM.stepN_ramp s e N c hN i] at hpj
  simp only [Except.ok.injEq, Prod.mk.injEq] at hpj
  obtain ⟨-, rfl⟩ := hpj
  show InterpolateRPM.Done _ = false
  rw [InterpolateRPM.Done_eq_false_iff]
  show c + (i : Int) < N.toInt
  omega

/-- The call that completes the current ramp returns the ramp's own value and moves the
sequence to the next child. -/
theorem SeqRPM.Step_ramp_last (sr : SeqRPM InterpolateRPM) (s e N : Int64) (c : Int)
    (hp : sr.Providers[sr.current]? = some ⟨s, e, N, c⟩) (hN : N ≠ 0) (h : N.toInt ≤ c + 1) :
    RPMProvider.Step sr = .ok (s + (e - s) / N * Int64.ofInt c,
      ⟨sr.Providers.set sr.current ⟨s, e, N, c + 1⟩, sr.current + 1⟩) := by
  have hs : RPMProvider.Step (⟨s, e, N, c⟩ : InterpolateRPM)
      = .ok (s + (e - s) / N * Int64.ofInt c, ⟨s, e, N, c + 1⟩) :=
    InterpolateRPM.Step_ok ⟨s, e, N, c⟩ hN
  have hd : RPMProvider.Done (⟨s, e, N, c + 1⟩ : InterpolateRPM) = true :=
    (InterpolateRPM.Done_iff _).2 h
  have := SeqRPM.Step_child sr _ _ _ hp hs
  simpa [hd] using this

/-- A sequence standing on a fresh ramp of `n + 1` steps returns the ramp's values for
`n + 1` calls and is on the next child afterwards. -/
theorem SeqRPM.stepN_whole_ramp (sr : SeqRPM InterpolateRPM) (s e N : Int64) (n : Nat)
    (hN : N.toInt = (n : Int) + 1)
    (hp : sr.Providers[sr.current]? = some ⟨s, e, N, 0⟩) :
    stepN (n + 1) sr = .ok (rampValues s e N 0 (n + 1),
      ⟨sr.Providers.set sr.current ⟨s, e, N, (n : Int) + 1⟩, sr.current + 1⟩) := by
  have hN0 : N ≠ 0 := by
    intro h0
    rw [h0, Int64.toInt_zero] at hN
    omega
  have h1 := SeqRPM.stepN_on_ramp sr s e N 0 n hp hN0 (by omega)
  have hlt : sr.current < sr.Providers.length := by
    rcases List.getElem?_eq_some_iff.1 hp with ⟨h, _⟩
    exact h
  have h2 := SeqRPM.Step_ramp_last
    ⟨sr.Providers.set sr.current ⟨s, e, N, 0 + n⟩, sr.current⟩ s e N
    (0 + n) (by simp [List.getElem?_set_self hlt]) hN0 (by omega)
  simp only [List.set_set] at h2
  have h3 := stepN_add n 1 h1 (stepN_succ_of_ok h2 rfl)
  rw [rampValues_succ]
  simpa using h3

theorem rampValues_head (s e N : Int64) (n : Nat) :
    (rampValues s e N 0 (n + 1))[0]? = some s := by
  simp only [rampValues, List.range_succ_eq_map, List.map_cons, List.getElem?_cons_zero,
    Option.some.injEq]
  apply Int64.ext_toInt
  rw [InterpolateRPM.toInt_value]
  simp only [Nat.cast_zero, add_zero, mul_zero]
  exact wrap64_of_range _ s.lo s.hi

/-! ## A sequence of two ramps -/

/-- C5: for every two fresh ramps A and B with A.Steps >= 1 and B.Steps >= 1, the loop
that steps SeqRPM{Providers: [A, B]} while it is not Done terminates after exactly
A.Steps + B.Steps Step calls and returns A's own values followed by B's own values.
The A.Steps-th call returns the value A produces on its A.Steps-th step and leaves A
Done and the index at 1; the next call returns B.Start.  Before each of the calls the
index is below 2 and Done is false; after the last the index is 2 and Done is true. -/
theorem SeqRPM.two_ramps (sA eA nA sB eB nB : Int64) (hA : 1 ≤ nA) (hB : 1 ≤ nB) :
    ∃ vsA vsB A' B',
      stepN nA.toInt.toNat (⟨sA, eA, nA, 0⟩ : InterpolateRPM) = .ok (vsA, A') ∧
      stepN nB.toInt.toNat (⟨sB, eB, nB, 0⟩ : InterpolateRPM) = .ok (vsB, B') ∧
      ((vsA ++ vsB).length : Int) = nA.toInt + nB.toInt ∧
      (∀ fuel, nA.toInt.toNat + nB.toInt.toNat ≤ fuel →
        runUntilDone fuel (⟨[⟨sA, eA, nA, 0⟩, ⟨sB, eB, nB, 0⟩], 0⟩ : SeqRPM InterpolateRPM)
          = some (.ok (vsA ++ vsB, ⟨[A', B'], 2⟩))) ∧
      (∀ j, j < nA.toInt.toNat + nB.toInt.toNat →
        ∃ vj sj, stepN j (⟨[⟨sA, eA, nA, 0⟩, ⟨sB, eB, nB, 0⟩], 0⟩ : SeqRPM InterpolateRPM)
          = .ok (vj, sj) ∧ SeqRPM.Done sj = false ∧ sj.current < 2) ∧
      stepN nA.toInt.toNat
          (⟨[⟨sA, eA, nA, 0⟩, ⟨sB, eB, nB, 0⟩], 0⟩ : SeqRPM InterpolateRPM)
        = .ok (vsA, ⟨[A', ⟨sB, eB, nB, 0⟩], 1⟩) ∧
      A'.Done = true ∧
      (vsA ++ vsB)[nA.toInt.toNat - 1]? = vsA.getLast? ∧
      vsA.getLast? = some (sA + (eA - sA) / nA * (nA - 1)) ∧
      (vsA ++ vsB)[nA.toInt.toNat]? = some sB ∧
      SeqRPM.Done (⟨[A', B'], 2⟩ : SeqRPM InterpolateRPM) = true := by
  have hA1 := Int64.one_le_toInt nA hA
  have hB1 := Int64.one_le_toInt nB hB
  obtain ⟨a, ha⟩ : ∃ a : Nat, nA.toInt = (a : Int) + 1 := ⟨(nA.toInt - 1).toNat, by omega⟩
  obtain ⟨b, hb⟩ : ∃ b : Nat, nB.toInt = (b : Int) + 1 := ⟨(nB.toInt - 1).toNat, by omega⟩
  have hta : nA.toInt.toNat = a + 1 := by omega
  have htb : nB.toInt.toNat = b + 1 := by omega
  have hNa : nA ≠ 0 := Int64.ne_zero_of_one_le nA hA
  have hNb : nB ≠ 0 := Int64.ne_zero_of_one_le nB hB
  rw [hta, htb, ha, hb]
  -- the two ramps on their own
  have hAown : stepN (a + 1) (⟨sA, eA, nA, 0⟩ : InterpolateRPM)
      = .ok (rampValues sA eA nA 0 (a + 1), ⟨sA, eA, nA, (a : Int) + 1⟩) := by
    have := InterpolateRPM.stepN_ramp sA eA nA 0 hNa (a + 1)
    simpa using this
  have hBown : stepN (b + 1) (⟨sB, eB, nB, 0⟩ : InterpolateRPM)
      = .ok (rampValues sB eB nB 0 (b + 1), ⟨sB, eB, nB, (b : Int) + 1⟩) := by
    have := InterpolateRPM.stepN_ramp sB eB nB 0 hNb (b + 1)
    simpa using this
  -- the sequence over the first ramp, then over the second
  have hS1 := SeqRPM.stepN_whole_ramp
    (⟨[⟨sA, eA, nA, 0⟩, ⟨sB, eB, nB, 0⟩], 0⟩ : SeqRPM InterpolateRPM) sA eA nA a ha rfl
  have hS2 := SeqRPM.stepN_whole_ramp
    (⟨[⟨sA, eA, nA, (a : Int) + 1⟩, ⟨sB, eB, nB, 0⟩], 1⟩ : SeqRPM InterpolateRPM)
    sB eB nB b hb rfl
  simp only [List.set_cons_zero, List.set_cons_succ, zero_add] at hS1 hS2
  have hall := stepN_add (a + 1) (b + 1) hS1 hS2
  -- every earlier state is not Done
  have hmid : ∀ j, j < a + 1 + (b + 1) →
      ∃ vj sj, stepN j (⟨[⟨sA, eA, nA, 0⟩, ⟨sB, eB, nB, 0⟩], 0⟩ : SeqRPM InterpolateRPM)
        = .ok (vj, sj) ∧ SeqRPM.Done sj = false ∧ sj.current < 2 := by
    intro j hj
    by_cases hja : j < a + 1
    · have h := SeqRPM.stepN_on_ramp
        (⟨[⟨sA, eA, nA, 0⟩, ⟨sB, eB, nB, 0⟩], 0⟩ : SeqRPM InterpolateRPM)
        sA eA nA 0 j rfl hNa (by omega)
      exact ⟨_, _, h, by simp [SeqRPM.Done], by simp⟩
    · obtain ⟨i, rfl⟩ : ∃ i, j = a + 1 + i := ⟨j - (a + 1), by omega⟩
      have h := SeqRPM.stepN_on_ramp
        (⟨[⟨sA, eA, nA, (a : Int) + 1⟩, ⟨sB, eB, nB, 0⟩], 1⟩ : SeqRPM InterpolateRPM)
        sB eB nB 0 i rfl hNb (by omega)
      exact ⟨_, _, stepN_add (a + 1) i hS1 h, by simp [SeqRPM.Done], by simp⟩
  refine ⟨_, _, _, _, hAown, hBown, ?_, ?_, hmid, hS1, ?_, ?_, ?_, ?_, ?_⟩
  · simp only [List.length_append, rampValues_length]
    push_cast
    ring
  · intro fuel hf
    refine runUntilDone_of_stepN (a + 1 + (b + 1)) _ _ _ hall
      (by simp [RPMProvider.Done, SeqRPM.Done]) ?_ fuel hf
    intro j hj vj sj hsj
    obtain ⟨vj', sj', h1, h2, -⟩ := hmid j hj
    rw [h1] at hsj
    simp only [Except.ok.injEq, Prod.mk.injEq] at hsj
    rw [← hsj.2]
    exact h2
  · rw [InterpolateRPM.Done_iff]
    show nA.toInt ≤ (a : Int) + 1
    omega
  · have hlen : a + 1 - 1 < (rampValues sA eA nA 0 (a + 1)).length := by
      simp [rampValues_length]
    rw [List.getElem?_append_left hlen, rampValues_succ, List.getLast?_concat,
      List.getElem?_append_right (by simp [rampValues_length])]
    simp [rampValues_length]
  · have hlast : Int64.ofInt ((0 : Int) + (a : Int)) = nA - 1 := by
      apply Int64.ext_toInt
      rw [Int64.toInt_ofInt, Int64.toInt_sub, Int64.toInt_one, ha]
      have : (0 : Int) + (a : Int) = (a : Int) + 1 - 1 := by omega
      rw [this]
    rw [rampValues_succ, List.getLast?_concat, hlast]
  · rw [List.getElem?_append_right (by simp [rampValues_length])]
    simp only [rampValues_length, Nat.sub_self]
    exact rampValues_head sB eB nB b
  · simp [SeqRPM.Done]

theorem SeqRPM.two_ramps_witness :
    (1 : Int64) ≤ 2 ∧ (1 : Int64) ≤ 1 ∧
    ∃ vsA vsB A' B',
      stepN (2 : Int64).toInt.toNat (⟨1300, 6500, 2, 0⟩ : InterpolateRPM) = .ok (vsA, A') ∧
      stepN (1 : Int64).toInt.toNat (⟨6500, 6500, 1, 0⟩ : InterpolateRPM) = .ok (vsB, B') ∧
      ((vsA ++ vsB).length : Int) = (2 : Int64).toInt + (1 : Int64).toInt ∧
      (∀ fuel, (2 : Int64).toInt.toNat + (1 : Int64).toInt.toNat ≤ fuel →
        runUntilDone fuel (⟨[⟨1300, 6500, 2, 0⟩, ⟨6500, 6500, 1, 0⟩], 0⟩ : SeqRPM InterpolateRPM)
          = some (.ok (vsA ++ vsB, ⟨[A', B'], 2⟩))) ∧
      (∀ j, j < (2 : Int64).toInt.toNat + (1 : Int64).toInt.toNat →
        ∃ vj sj, stepN j (⟨[⟨1300, 6500, 2, 0⟩, ⟨6500, 6500, 1, 0⟩], 0⟩ : SeqRPM InterpolateRPM)
          = .ok (vj, sj) ∧ SeqRPM.Done sj = false ∧ sj.current < 2) ∧
      stepN (2 : Int64).toInt.toNat
          (⟨[⟨1300, 6500, 2, 0⟩, ⟨6500, 6500, 1, 0⟩], 0⟩ : SeqRPM InterpolateRPM)
        = .ok (vsA, ⟨[A', ⟨6500, 6500, 1, 0⟩], 1⟩) ∧
      A'.Done = true ∧
      (vsA ++ vsB)[(2 : Int64).toInt.toNat - 1]? = vsA.getLast? ∧
      vsA.getLast? = some (1300 + (6500 - 1300) / 2 * (2 - 1)) ∧
      (vsA ++ vsB)[(2 : Int64).toInt.toNat]? = some 6500 ∧
      SeqRPM.Done (⟨[A', B'], 2⟩ : SeqRPM InterpolateRPM) = true :=
  ⟨by decide, by decide, SeqRPM.two_ramps 1300 6500 2 6500 6500 1 (by decide) (by decide)⟩

/-! ## Completion is permanent -/

theorem stepN_Done_of_permanent {σ : Type} [RPMProvider σ] (hperm : CompletionPermanent σ)
    (n : Nat) (s s' : σ) (vs : List Int64) (hd : RPMProvider.Done s = true)
    (h : stepN n s = .ok (vs, s')) : RPMProvider.Done s' = true := by
  induction n generalizing s vs with
  | zero =>
    simp only [stepN, Except.ok.injEq, Prod.mk.injEq] at h
    rw [← h.2]; exact hd
  | succ n ih =>
    obtain ⟨v, s1, vs', hs, hrest, -⟩ := stepN_succ_inv h
    exact ih s1 vs' (hperm s s1 v hs hd) hrest

theorem InterpolateRPM.ramp_Step_inv (ir ir' : InterpolateRPM) (v : Int64)
    (h : ir.Step = .ok (v, ir')) :
    ir'.current = ir.current + 1 ∧ ir'.Steps = ir.Steps ∧ ir'.Start = ir.Start ∧
      ir'.End = ir.End := by
  unfold InterpolateRPM.Step at h
  split at h
  · simp at h
  · simp only [Except.ok.injEq, Prod.mk.injEq] at h
    obtain ⟨-, rfl⟩ := h
    simp

theorem SeqRPM.seq_Step_inv {σ : Type} [RPMProvider σ] (sr sr' : SeqRPM σ) (v : Int64)
    (h : sr.Step = .ok (v, sr')) :
    sr.current < sr.Providers.length ∧ sr.current ≤ sr'.current ∧
      sr'.current ≤ sr.current + 1 ∧ sr'.Providers.length = sr.Providers.length := by
  unfold SeqRPM.Step at h
  cases hp : sr.Providers[sr.current]? with
  | none => simp [hp] at h
  | some p =>
    have hlt : sr.current < sr.Providers.length := by
      rcases List.getElem?_eq_some_iff.1 hp with ⟨h, _⟩
      exact h
    cases hs : RPMProvider.Step p with
    | error e => simp [hp, hs] at h
    | ok r =>
      obtain ⟨u, p'⟩ := r
      simp only [hp, hs, Except.ok.injEq, Prod.mk.injEq] at h
      obtain ⟨-, rfl⟩ := h
      refine ⟨hlt, ?_, ?_, by simp⟩ <;> dsimp only <;> split <;> omega

theorem InterpolateRPM.ramp_permanent : CompletionPermanent InterpolateRPM := by
  intro s s' v hs hd
  obtain ⟨hc, hn, -, -⟩ := InterpolateRPM.ramp_Step_inv s s' v hs
  have hd' : s.Steps.toInt ≤ s.current := (InterpolateRPM.Done_iff s).1 hd
  exact (InterpolateRPM.Done_iff s').2 (by rw [hn]; omega)

theorem SeqRPM.seq_permanent (σ : Type) [RPMProvider σ] : CompletionPermanent (SeqRPM σ) := by
  intro s s' v hs hd
  obtain ⟨hlt, -, -, -⟩ := SeqRPM.seq_Step_inv s s' v hs
  have : s.Providers.length ≤ s.current := by
    simpa [RPMProvider.Done, SeqRPM.Done] using hd
  omega

theorem EMARPM.ema_Step_inner {σ : Type} [RPMProvider σ] (r r' : EMARPM σ) (v : Int64)
    (h : r.Step = .ok (v, r')) :
    ∃ u, RPMProvider.Step r.Provider = .ok (u, r'.Provider) := by
  unfold EMARPM.Step at h
  cases hs : RPMProvider.Step r.Provider with
  | error e => simp [hs] at h
  | ok x =>
    obtain ⟨u, p'⟩ := x
    simp only [hs, Except.ok.injEq, Prod.mk.injEq] at h
    obtain ⟨-, rfl⟩ := h
    exact ⟨u, rfl⟩

theorem JitterRPM.jitter_Step_inner {σ : Type} [RPMProvider σ] (jr jr' : JitterRPM σ) (v : Int64)
    (h : jr.Step = .ok (v, jr')) :
    ∃ u, RPMProvider.Step jr.Provider = .ok (u, jr'.Provider) := by
  unfold JitterRPM.Step at h
  cases hs : RPMProvider.Step jr.Provider with
  | error e => simp [hs] at h
  | ok x =>
    obtain ⟨u, p'⟩ := x
    simp only [hs, Except.ok.injEq, Prod.mk.injEq] at h
    obtain ⟨-, rfl⟩ := h
    exact ⟨u, rfl⟩

/-- C9: completion is permanent for every trajectory node.  A Step of an
InterpolateRPM raises its cursor by one and leaves Steps alone, a Step of a SeqRPM
never lowers its cursor and keeps the list length, so once Done is true it is true
after any number of further successful Step calls (an InterpolateRPM with Steps != 0
takes any number of them; a Done SeqRPM panics on Step, so nothing but Done queries
follows).  Done of an EMARPM or JitterRPM is Done of its inner node, their Step steps
the inner node, and so they keep completion whenever the inner node does. -/
theorem completion_is_permanent :
    (∀ (ir ir' : InterpolateRPM) (v : Int64), ir.Step = .ok (v, ir') →
      ir'.current = ir.current + 1 ∧ ir'.Steps = ir.Steps) ∧
    (∀ (n : Nat) (ir : InterpolateRPM), ir.Steps ≠ 0 → ir.Done = true →
      ∃ vs ir', stepN n ir = .ok (vs, ir') ∧ ir'.Done = true) ∧
    (∀ (n : Nat) (ir ir' : InterpolateRPM) (vs : List Int64), ir.Done = true →
      stepN n ir = .ok (vs, ir') → ir'.Done = true) ∧
    (∀ (σ : Type) [RPMProvider σ] (sr sr' : SeqRPM σ) (v : Int64), sr.Step = .ok (v, sr') →
      sr.current ≤ sr'.current ∧ sr'.Providers.length = sr.Providers.length) ∧
    (∀ (σ : Type) [RPMProvider σ] (sr : SeqRPM σ), sr.Done = true →
      sr.Step = .error .indexOutOfRange) ∧
    (∀ (σ : Type) [RPMProvider σ] (n : Nat) (sr sr' : SeqRPM σ) (vs : List Int64),
      sr.Done = true → stepN n sr = .ok (vs, sr') → sr'.Done = true) ∧
    (∀ (σ : Type) [RPMProvider σ] (r : EMARPM σ), r.Done = RPMProvider.Done r.Provider) ∧
    (∀ (σ : Type) [RPMProvider σ] (jr : JitterRPM σ), jr.Done = RPMProvider.Done jr.Provider) ∧
    (∀ (σ : Type) [RPMProvider σ], CompletionPermanent σ →
      CompletionPermanent (EMARPM σ) ∧ CompletionPermanent (JitterRPM σ)) := by
  refine ⟨?_, ?_, ?_, ?_, ?_, ?_, fun _ _ _ => rfl, fun _ _ _ => rfl, ?_⟩
  · intro ir ir' v h
    obtain ⟨h1, h2, -, -⟩ := InterpolateRPM.ramp_Step_inv ir ir' v h
    exact ⟨h1, h2⟩
  · intro n ir h0 hd
    exact ⟨_, _, InterpolateRPM.stepN_ok n ir h0,
      stepN_Done_of_permanent InterpolateRPM.ramp_permanent n ir _ _ hd
        (InterpolateRPM.stepN_ok n ir h0)⟩
  · intro n ir ir' vs hd h
    exact stepN_Done_of_permanent InterpolateRPM.ramp_permanent n ir ir' vs hd h
  · intro σ _ sr sr' v h
    obtain ⟨-, h1, -, h2⟩ := SeqRPM.seq_Step_inv sr sr' v h
    exact ⟨h1, h2⟩
  · intro σ _ sr hd
    have : sr.Providers.length ≤ sr.current := by simpa [SeqRPM.Done] using hd
    simp [SeqRPM.Step, List.getElem?_eq_none this]
  · intro σ _ n sr sr' vs hd h
    exact stepN_Done_of_permanent (SeqRPM.seq_permanent σ) n sr sr' vs hd h
  · intro σ _ hperm
    constructor
    · intro r r' v hs hd
      obtain ⟨u, hu⟩ := EMARPM.ema_Step_inner r r' v hs
      exact hperm _ _ u hu hd
    · intro jr jr' v hs hd
      obtain ⟨u, hu⟩ := JitterRPM.jitter_Step_inner jr jr' v hs
      exact hperm _ _ u hu hd

theorem completion_is_permanent_witness :
    (2 : Int64) ≠ 0 ∧ InterpolateRPM.Done ⟨1300, 6500, 2, 2⟩ = true ∧
    ∃ vs ir', stepN 3 (⟨1300, 6500, 2, 2⟩ : InterpolateRPM) = .ok (vs, ir') ∧ ir'.Done = true :=
  ⟨by decide, by decide,
    completion_is_permanent.2.1 3 ⟨1300, 6500, 2, 2⟩ (by decide) (by decide)⟩

/-! ## Lemmas on Float64 -/

theorem roundHalfEven_intCast (n : Int) : roundHalfEven (n : ℚ) = n := by
  simp [roundHalfEven]

theorem roundHalfEven_nonneg (t : ℚ) (h : 0 ≤ t) : 0 ≤ roundHalfEven t := by
  have hf : 0 ≤ ⌊t⌋ := Int.floor_nonneg.2 h
  unfold roundHalfEven
  split_ifs <;> omega

theorem roundHalfEven_le_ceil (t : ℚ) : roundHalfEven t ≤ ⌈t⌉ := by
  have h1 : ⌊t⌋ ≤ ⌈t⌉ := Int.floor_le_ceil t
  unfold roundHalfEven
  split_ifs with ha hb hc
  · exact h1
  · have : ⌊t⌋ < ⌈t⌉ := Int.lt_ceil.2 (by linarith)
    omega
  · exact h1
  · have : ⌊t⌋ < ⌈t⌉ := Int.lt_ceil.2 (by linarith)
    omega

theorem bitLength_zero (fuel : Nat) : bitLength fuel 0 = 0 := by
  cases fuel <;> simp [bitLength]

theorem bitLength_spec (fuel n : Nat) (hfuel : n ≤ fuel) (hn : n ≠ 0) :
    2 ^ bitLength fuel n ≤ 2 * n ∧ n < 2 ^ bitLength fuel n := by
  induction fuel generalizing n with
  | zero => omega
  | succ fuel ih =>
    simp only [bitLength, hn, if_false]
    by_cases h2 : n / 2 = 0
    · have h1 : n = 1 := by omega
      subst h1
      simp [bitLength_zero]
    · obtain ⟨ih1, ih2⟩ := ih (n / 2) (by omega) h2
      rw [pow_succ]
      omega

theorem zpow_bracket (N D bn bd : Nat) (hD : 0 < D) (hn1 : 2 ^ bn ≤ 2 * N)
    (hn2 : N < 2 ^ bn) (hd1 : 2 ^ bd ≤ 2 * D) (hd2 : D < 2 ^ bd) :
    (2 : ℚ) ^ ((bn : Int) - (bd : Int) - 1) ≤ (N : ℚ) / (D : ℚ) ∧
    (N : ℚ) / (D : ℚ) < (2 : ℚ) ^ ((bn : Int) - (bd : Int) + 1) := by
  have hDpos : (0 : ℚ) < (D : ℚ) := by exact_mod_cast hD
  have hn1q : (2 : ℚ) ^ bn ≤ 2 * (N : ℚ) := by exact_mod_cast hn1
  have hn2q : (N : ℚ) < (2 : ℚ) ^ bn := by exact_mod_cast hn2
  have hd1q : (2 : ℚ) ^ bd ≤ 2 * (D : ℚ) := by exact_mod_cast hd1
  have hd2q : (D : ℚ) < (2 : ℚ) ^ bd := by exact_mod_cast hd2
  have hpd : (0 : ℚ) < (2 : ℚ) ^ bd := by positivity
  have hN0 : (0 : ℚ) ≤ (N : ℚ) := Nat.cast_nonneg N
  have hzp : ∀ k : Int, (2 : ℚ) ^ ((bn : Int) - (bd : Int) + k)
      = (2 : ℚ) ^ bn / (2 : ℚ) ^ bd * (2 : ℚ) ^ k := by
    intro k
    rw [zpow_add₀ (by norm_num), zpow_sub₀ (by norm_num), zpow_natCast, zpow_natCast]
  constructor
  · have := hzp (-1)
    rw [← sub_eq_add_neg] at this
    rw [this, zpow_neg, zpow_one, div_mul_eq_mul_div, div_le_div_iff₀ hpd hDpos]
    nlinarith
  · rw [hzp 1, zpow_one, div_mul_eq_mul_div, div_lt_div_iff₀ hDpos hpd]
    nlinarith

/-- The binary logarithm brackets its argument. -/
theorem ilog2_spec (y : ℚ) (hy : 0 < y) :
    (2 : ℚ) ^ ilog2 y ≤ y ∧ y < (2 : ℚ) ^ (ilog2 y + 1) := by
  have hnum : 0 < y.num := Rat.num_pos.2 hy
  have hN0 : y.num.natAbs ≠ 0 := by omega
  obtain ⟨hn1, hn2⟩ := bitLength_spec y.num.natAbs y.num.natAbs (le_refl _) hN0
  obtain ⟨hd1, hd2⟩ := bitLength_spec y.den y.den (le_refl _) y.den_nz
  have hcast : ((y.num.natAbs : Nat) : ℚ) = (y.num : ℚ) := by
    rw [← Int.cast_natCast, Int.natAbs_of_nonneg hnum.le]
  have hyq : ((y.num.natAbs : Nat) : ℚ) / (y.den : ℚ) = y := by
    rw [hcast]; exact Rat.num_div_den y
  obtain ⟨hlow, hhigh⟩ := zpow_bracket y.num.natAbs y.den _ _ y.den_pos hn1 hn2 hd1 hd2
  rw [hyq] at hlow hhigh
  unfold ilog2
  split_ifs with h
  · exact ⟨h, hhigh⟩
  · refine ⟨hlow, ?_⟩
    rw [sub_add_cancel]
    exact lt_of_not_le h

theorem Float64.round_zero : Float64.round 0 = .finite 0 := by
  simp [Float64.round]

/-- A value that is a whole number of units in the last place and below 2^1024 in size
rounds to itself. -/
theorem Float64.round_of_grid (y : ℚ) (M : Int)
    (hM : |y| / (2 : ℚ) ^ (max (ilog2 |y| - 52) (-1074)) = (M : ℚ))
    (hbig : |y| < (2 : ℚ) ^ (1024 : Int)) : Float64.round y = .finite y := by
  by_cases h0 : y = 0
  · rw [h0]; exact Float64.round_zero
  have hpow : (0 : ℚ) < (2 : ℚ) ^ (max (ilog2 |y| - 52) (-1074)) := zpow_pos (by norm_num) _
  have hr : ((roundHalfEven (|y| / (2 : ℚ) ^ (max (ilog2 |y| - 52) (-1074))) : Int) : ℚ)
      * (2 : ℚ) ^ (max (ilog2 |y| - 52) (-1074)) = |y| := by
    rw [hM, roundHalfEven_intCast, ← hM]
    field_simp
  simp only [Float64.round, h0, if_false, hr, not_le.2 hbig]
  by_cases hneg : y < 0
  · simp [hneg, abs_of_neg hneg]
  · simp [hneg, abs_of_nonneg (not_lt.1 hneg)]

/-- The conversion of an integer of size at most 2^53 is exact. -/
theorem Float64.round_intCast (v : Int) (hv : |v| ≤ 9007199254740992) :
    Float64.round (v : ℚ) = .finite (v : ℚ) := by
  by_cases h0 : v = 0
  · rw [h0]; simpa using Float64.round_zero
  have habs : |(v : ℚ)| = ((|v| : Int) : ℚ) := by push_cast; rfl
  have hpos : (0 : ℚ) < |(v : ℚ)| := abs_pos.2 (by exact_mod_cast h0)
  have hle : |(v : ℚ)| ≤ (2 : ℚ) ^ (53 : Int) := by
    rw [habs]
    have : ((|v| : Int) : ℚ) ≤ ((9007199254740992 : Int) : ℚ) := by exact_mod_cast hv
    calc ((|v| : Int) : ℚ) ≤ ((9007199254740992 : Int) : ℚ) := this
      _ = (2 : ℚ) ^ (53 : Int) := by norm_num
  obtain ⟨hl, -⟩ := ilog2_spec |(v : ℚ)| hpos
  have hL : ilog2 |(v : ℚ)| ≤ 53 :=
    (zpow_le_zpow_iff_right₀ (by norm_num : (1 : ℚ) < 2)).1 (le_trans hl hle)
  have hbig : |(v : ℚ)| < (2 : ℚ) ^ (1024 : Int) :=
    lt_of_le_of_lt hle (zpow_lt_zpow_right₀ (by norm_num) (by norm_num))
  rcases lt_or_eq_of_le hL with hlt | heq
  · -- the last place is at most 1
    have he : max (ilog2 |(v : ℚ)| - 52) (-1074) ≤ 0 := by omega
    obtain ⟨k, hk⟩ : ∃ k : Nat, max (ilog2 |(v : ℚ)| - 52) (-1074) = -(k : Int) :=
      ⟨(-(max (ilog2 |(v : ℚ)| - 52) (-1074))).toNat, by omega⟩
    refine Float64.round_of_grid _ (|v| * 2 ^ k) ?_ hbig
    rw [hk, zpow_neg, zpow_natCast, habs]
    push_cast
    field_simp
  · -- the value is 2^53 in size
    have hv53 : |(v : ℚ)| = (2 : ℚ) ^ (53 : Int) := by
      apply le_antisymm hle
      rw [heq] at hl
      exact hl
    have he : max (ilog2 |(v : ℚ)| - 52) (-1074) = 1 := by omega
    refine Float64.round_of_grid _ (2 ^ 52) ?_ hbig
    rw [he, hv53]
    norm_num

/-- A non-negative exact result below 2^53 rounds to a finite non-negative value that
does not exceed the next integer. -/
theorem Float64.round_le_ceil (y : ℚ) (h0 : 0 ≤ y) (hy : y < 9007199254740992) :
    ∃ r : ℚ, Float64.round y = .finite r ∧ 0 ≤ r ∧ r ≤ (⌈y⌉ : ℚ) := by
  rcases eq_or_lt_of_le h0 with h | hpos
  · rw [← h]
    exact ⟨0, Float64.round_zero, le_refl _, by simp⟩
  have habs : |y| = y := abs_of_pos hpos
  obtain ⟨hl, -⟩ := ilog2_spec y hpos
  have hlt : (2 : ℚ) ^ ilog2 y < (2 : ℚ) ^ (53 : Int) := by
    calc (2 : ℚ) ^ ilog2 y ≤ y := hl
      _ < 9007199254740992 := hy
      _ = (2 : ℚ) ^ (53 : Int) := by norm_num
  have hL : ilog2 y < 53 := (zpow_lt_zpow_iff_right₀ (by norm_num : (1 : ℚ) < 2)).1 hlt
  obtain ⟨k, hk⟩ : ∃ k : Nat, max (ilog2 y - 52) (-1074) = -(k : Int) :=
    ⟨(-(max (ilog2 y - 52) (-1074))).toNat, by omega⟩
  have hpk : (0 : ℚ) < (2 : ℚ) ^ k := by positivity
  have hdiv : y / (2 : ℚ) ^ (-(k : Int)) = y * (2 : ℚ) ^ k := by
    rw [zpow_neg, zpow_natCast]
    field_simp
  have hm0 : 0 ≤ roundHalfEven (y * (2 : ℚ) ^ k) :=
    roundHalfEven_nonneg _ (mul_nonneg h0 hpk.le)
  have hm1 : roundHalfEven (y * (2 : ℚ) ^ k) ≤ ⌈y⌉ * 2 ^ k := by
    refine le_trans (roundHalfEven_le_ceil _) (Int.ceil_le.2 ?_)
    push_cast
    exact mul_le_mul_of_nonneg_right (Int.le_ceil y) hpk.le
  have hm0q : (0 : ℚ) ≤ ((roundHalfEven (y * (2 : ℚ) ^ k) : Int) : ℚ) := by exact_mod_cast hm0
  have hm1q : ((roundHalfEven (y * (2 : ℚ) ^ k) : Int) : ℚ) ≤ (⌈y⌉ : ℚ) * (2 : ℚ) ^ k := by
    exact_mod_cast hm1
  have hr : ((roundHalfEven (y * (2 : ℚ) ^ k) : Int) : ℚ) * (2 : ℚ) ^ (-(k : Int))
      ≤ (⌈y⌉ : ℚ) := by
    rw [zpow_neg, zpow_natCast, ← div_eq_mul_inv, div_le_iff₀ hpk]
    exact hm1q
  have hceil : (⌈y⌉ : ℚ) ≤ 9007199254740992 := by
    have : ⌈y⌉ ≤ 9007199254740992 := Int.ceil_le.2 (by exact_mod_cast hy.le)
    exact_mod_cast this
  refine ⟨((roundHalfEven (y * (2 : ℚ) ^ k) : Int) : ℚ) * (2 : ℚ) ^ (-(k : Int)), ?_, ?_, hr⟩
  · have hnb : ¬ ((2 : ℚ) ^ (1024 : Int)
        ≤ ((roundHalfEven (y * (2 : ℚ) ^ k) : Int) : ℚ) * (2 : ℚ) ^ (-(k : Int))) := by
      rw [not_le]
      calc _ ≤ (⌈y⌉ : ℚ) := hr
        _ ≤ 9007199254740992 := hceil
        _ < (2 : ℚ) ^ (1024 : Int) := by norm_num
    simp only [Float64.round, hpos.ne', if_false, habs, hk, hdiv, hnb, not_lt.2 h0]
  · exact mul_nonneg hm0q (zpow_pos (by norm_num) _).le

theorem Float64.one_eq : (1 : Float64) = .finite 1 := by
  show Float64.round ((1 : Nat) : ℚ) = .finite 1
  simpa using Float64.round_intCast 1 (by decide)

theorem Float64.sixty_eq : (60 : Float64) = .finite 60 := by
  show Float64.round ((60 : Nat) : ℚ) = .finite 60
  simpa using Float64.round_intCast 60 (by decide)

theorem Float64.toInt_intCast (v : Int64) : (Float64.finite (v.toInt : ℚ)).toInt = v := by
  have h1 := v.lo
  have h2 := v.hi
  apply Int64.ext_toInt
  simp only [Float64.toInt, Rat.intCast_num, Rat.intCast_den, Nat.cast_one, Int.tdiv_one,
    h1, h2, and_self, if_true, Int64.toInt_ofInt]
  exact wrap64_of_range _ h1 h2

/-- With Alpha = 1, a finite previous value and an inner value of size at most 2^53,
the smoothed value is the inner value. -/
theorem EMARPM.newRPM_alpha_one (v : Int64) (hv : |v.toInt| ≤ 9007199254740992) (last : ℚ) :
    Float64.ofInt v.toInt * (1 : Float64) + ((1 : Float64) - 1) * Float64.finite last
      = .finite (v.toInt : ℚ) := by
  rw [Float64.one_eq]
  have h1 : Float64.ofInt v.toInt = .finite (v.toInt : ℚ) := Float64.round_intCast _ hv
  have h2 : Float64.finite (v.toInt : ℚ) * Float64.finite 1 = .finite (v.toInt : ℚ) := by
    show Float64.round ((v.toInt : ℚ) * 1) = _
    rw [mul_one]; exact Float64.round_intCast _ hv
  have h3 : Float64.finite 1 - Float64.finite 1 = .finite 0 := by
    show Float64.round (1 + -1) = _
    norm_num [Float64.round_zero]
  have h4 : Float64.finite 0 * Float64.finite last = .finite 0 := by
    show Float64.round (0 * last) = _
    rw [zero_mul]; exact Float64.round_zero
  have h5 : Float64.finite (v.toInt : ℚ) + Float64.finite 0 = .finite (v.toInt : ℚ) := by
    show Float64.round ((v.toInt : ℚ) + 0) = _
    rw [add_zero]; exact Float64.round_intCast _ hv
  rw [h1, h2, h3, h4, h5]

/-! ## EMARPM with Alpha = 1 -/

/-- C7, as stated, fails: float64 holds integers exactly only up to 2^53.  On an inner
node whose Step returns 2^53 + 1, EMARPM{Alpha: 1} returns 2^53. -/
theorem EMARPM.passthrough_fails_above_2_53 :
    (InterpolateRPM.Step ⟨9007199254740993, 0, 1, 0⟩).map Prod.fst = .ok 9007199254740993 ∧
    (EMARPM.Step (⟨(⟨9007199254740993, 0, 1, 0⟩ : InterpolateRPM), 1, .finite 0⟩)).map Prod.fst
      = .ok 9007199254740992 := by
  decide!

/-- C7, amended: EMA with alpha = 1 is a passthrough for values of size at most 2^53.
For every inner provider and every finite previous smoothed value, a Step call whose
inner Step returns v with |v| <= 2^53 returns exactly v and stores v as the smoothed
value, a Step call whose inner Step fails fails the same way, Done equals the inner
Done, and over any number of calls whose inner values all have size at most 2^53 the
values returned are those of the inner provider. -/
theorem EMARPM.alpha_one_passthrough {σ : Type} [RPMProvider σ] (inner : σ) (last : ℚ) :
    (∀ (v : Int64) (p : σ), RPMProvider.Step inner = .ok (v, p) →
      |v.toInt| ≤ 9007199254740992 →
      EMARPM.Step ⟨inner, 1, .finite last⟩ = .ok (v, ⟨p, 1, .finite (v.toInt : ℚ)⟩)) ∧
    (∀ e : Fault, RPMProvider.Step inner = .error e →
      EMARPM.Step ⟨inner, 1, .finite last⟩ = .error e) ∧
    EMARPM.Done ⟨inner, 1, .finite last⟩ = RPMProvider.Done inner ∧
    (∀ (n : Nat) (vs : List Int64) (p : σ), stepN n inner = .ok (vs, p) →
      (∀ v ∈ vs, |v.toInt| ≤ 9007199254740992) →
      ∃ l : ℚ, stepN n (⟨inner, 1, .finite last⟩ : EMARPM σ) = .ok (vs, ⟨p, 1, .finite l⟩)) := by
  have hstep : ∀ (q : σ) (l : ℚ) (v : Int64) (p : σ), RPMProvider.Step q = .ok (v, p) →
      |v.toInt| ≤ 9007199254740992 →
      EMARPM.Step ⟨q, 1, .finite l⟩ = .ok (v, ⟨p, 1, .finite (v.toInt : ℚ)⟩) := by
    intro q l v p hs hv
    simp only [EMARPM.Step, hs, EMARPM.newRPM_alpha_one v hv l, Float64.toInt_intCast]
  refine ⟨hstep inner last, ?_, rfl, ?_⟩
  · intro e he
    simp only [EMARPM.Step, he]
  · intro n
    induction n generalizing inner last with
    | zero =>
      intro vs p h _
      simp only [stepN, Except.ok.injEq, Prod.mk.injEq] at h
      obtain ⟨rfl, rfl⟩ := h
      exact ⟨last, rfl⟩
    | succ n ih =>
      intro vs p h hb
      obtain ⟨v, s1, vs', hs, hrest, rfl⟩ := stepN_succ_inv h
      obtain ⟨l, hl⟩ := ih s1 (v.toInt : ℚ) vs' p hrest
        (fun u hu => hb u (List.mem_cons_of_mem _ hu))
      have h1 : RPMProvider.Step (⟨inner, 1, .finite last⟩ : EMARPM σ)
          = .ok (v, ⟨s1, 1, .finite (v.toInt : ℚ)⟩) :=
        hstep inner last v s1 hs (hb v (List.mem_cons_self _ _))
      exact ⟨l, stepN_succ_of_ok h1 hl⟩

theorem EMARPM.alpha_one_passthrough_witness :
    RPMProvider.Step (⟨1300, 6500, 2, 0⟩ : InterpolateRPM) = .ok (1300, ⟨1300, 6500, 2, 1⟩) ∧
    |(1300 : Int64).toInt| ≤ 9007199254740992 ∧
    EMARPM.Step (⟨(⟨1300, 6500, 2, 0⟩ : InterpolateRPM), 1, .finite 0⟩)
      = .ok (1300, ⟨⟨1300, 6500, 2, 1⟩, 1, .finite ((1300 : Int64).toInt : ℚ)⟩) :=
  ⟨by decide, by decide,
    (EMARPM.alpha_one_passthrough (⟨1300, 6500, 2, 0⟩ : InterpolateRPM) 0).1 1300
      ⟨1300, 6500, 2, 1⟩ (by decide) (by decide)⟩

/-- A cold start with a fractional Alpha: the first smoothed value of 100 at the double
nearest 0.57 is 56.99999999999999..., which converts to 56. -/
theorem EMARPM.cold_start_rounds_down :
    (EMARPM.Step (⟨(⟨100, 0, 1, 0⟩ : InterpolateRPM), Float64.round (57 / 100),
      .finite 0⟩)).map Prod.fst = .ok 56 := by
  decide!

theorem Float64.flt_iff (a b : Float64) : a < b ↔ Float64.lt a b = true := Iff.rfl

theorem Float64.finite_lt_finite (a b : ℚ) : Float64.finite a < Float64.finite b ↔ a < b := by
  simp [Float64.flt_iff, Float64.lt]

theorem Float64.flt_irrefl (a : Float64) : ¬ (a < a) := by
  cases a <;> simp [Float64.flt_iff, Float64.lt]

theorem Float64.flt_trans {a b c : Float64} (h1 : a < b) (h2 : b < c) : a < c := by
  cases a <;> cases b <;> cases c
  all_goals simp_all [Float64.flt_iff, Float64.lt]
  all_goals linarith

theorem Float64.not_lt_of_lt_of_not_lt {a b c : Float64} (h1 : a < b) (h2 : ¬ (a < c)) :
    ¬ (b < c) := by
  cases a <;> cases b <;> cases c
  all_goals simp_all [Float64.flt_iff, Float64.lt]
  all_goals linarith

/-! ## computeRPM -/

/-- C1: on a source with zero samples the window size is 0 and the loop condition
`i < w.Samples/windowSize` divides by it: computeRPM panics instead of returning 0,
whatever the sample rate, the ceiling and the collaborators. -/
theorem computeRPM_zero_samples_panics (FFTReal : List Float64 → List Complex128)
    (cmplxAbs : Complex128 → Float64) (plot : List (Float64 × Float64) → Bool)
    (sampleRate : Nat) (data : List Float64) (max : Int64) :
    windowSizeOf ⟨sampleRate, 0, data⟩ = 0 ∧
    computeRPM FFTReal cmplxAbs plot ⟨sampleRate, 0, data⟩ max = .error .divideByZero := by
  have h : windowSizeOf ⟨sampleRate, 0, data⟩ = 0 := by simp [windowSizeOf]
  exact ⟨h, by simp [computeRPM, h]⟩

theorem windowSizeOf_eq_min (w : Wav) : windowSizeOf w = min w.Samples w.SampleRate := by
  unfold windowSizeOf
  split <;> omega

theorem accumulate_ok (out : List Complex128) (j : Nat) (analysis : List Complex128)
    (h : j + out.length ≤ analysis.length) :
    ∃ r, accumulate j out analysis = .ok r ∧ r.length = analysis.length := by
  induction out generalizing j analysis with
  | nil => exact ⟨analysis, rfl, rfl⟩
  | cons v out ih =>
    simp only [List.length_cons] at h
    have hj : j < analysis.length := by omega
    obtain ⟨r, hr, hlen⟩ := ih (j + 1) (analysis.set j (analysis[j] + v))
      (by simp only [List.length_set]; omega)
    refine ⟨r, ?_, by simpa using hlen⟩
    simp only [accumulate, List.getElem?_eq_getElem hj]
    exact hr

theorem readWindows_ok (FFTReal : List Float64 → List Complex128)
    (hfft : ∀ xs, (FFTReal xs).length = xs.length) (windowSize n : Nat) (w : Wav)
    (analysis : List Complex128) (hlen : analysis.length = windowSize)
    (hdata : n * windowSize ≤ w.data.length) :
    ∃ r w', readWindows FFTReal windowSize n w analysis = .ok (r, w') ∧
      r.length = windowSize ∧ w'.data.length + n * windowSize = w.data.length := by
  induction n generalizing w analysis with
  | zero => exact ⟨analysis, w, rfl, hlen, by simp⟩
  | succ n ih =>
    have hle : windowSize ≤ w.data.length := by
      have : (n + 1) * windowSize = n * windowSize + windowSize := by ring
      omega
    have hread : w.ReadFloats windowSize
        = .ok (w.data.take windowSize, { w with data := w.data.drop windowSize }) := by
      simp [Wav.ReadFloats, hle]
    obtain ⟨acc, hacc, hacclen⟩ := accumulate_ok
      (FFTReal (f32ToF64 (w.data.take windowSize))) 0 analysis
      (by simp [hfft, f32ToF64, hlen, hle])
    obtain ⟨r, w', hr, hrlen, hcount⟩ := ih { w with data := w.data.drop windowSize } acc
      (by rw [hacclen, hlen])
      (by
        simp only [List.length_drop]
        have : (n + 1) * windowSize = n * windowSize + windowSize := by ring
        omega)
    refine ⟨r, w', ?_, hrlen, ?_⟩
    · simp only [readWindows, hread, hacc]
      exact hr
    · simp only [List.length_drop] at hcount
      have : (n + 1) * windowSize = n * windowSize + windowSize := by ring
      omega

theorem drop_cons_inv {α : Type} (l : List α) (i : Nat) (x : α) (rest : List α)
    (h : l.drop i = x :: rest) : l[i]? = some x ∧ l.drop (i + 1) = rest := by
  constructor
  · have := List.getElem?_drop l i 0
    rw [h] at this
    simpa using this.symm
  · rw [← List.tail_drop, h]
    rfl

theorem scan_spec (cmplxAbs : Complex128 → Float64) (sampleRate windowSize : Nat)
    (max : Int64) (bins rest : List Complex128) (i : Nat) (st : Peak)
    (hdrop : bins.drop i = rest)
    (hinv : ScanInv cmplxAbs sampleRate windowSize bins i st)
    (hcand : ∀ j, 1 ≤ j → j < i →
      ¬ (binRPM sampleRate windowSize j > Float64.ofInt max.toInt)) :
    ∃ stop, stop ≤ bins.length ∧
      (∀ j, 1 ≤ j → j < stop → ¬ (binRPM sampleRate windowSize j > Float64.ofInt max.toInt)) ∧
      (stop < bins.length →
        1 ≤ stop ∧ binRPM sampleRate windowSize stop > Float64.ofInt max.toInt) ∧
      ScanInv cmplxAbs sampleRate windowSize bins stop
        (scan cmplxAbs sampleRate windowSize max i rest st) := by
  induction rest generalizing i st with
  | nil =>
    have hlen : bins.length ≤ i := List.drop_eq_nil_iff.1 hdrop
    obtain ⟨h1, h2, h3⟩ := hinv
    refine ⟨bins.length, le_refl _, fun j hj1 hj => hcand j hj1 (by omega),
      fun h => absurd h (lt_irrefl _), h1, fun j c hj1 hj hc => h2 j c hj1 (by omega) hc, ?_⟩
    rcases h3 with h3 | ⟨k, c, hk1, -, hc, hrest⟩
    · exact Or.inl h3
    · have hk : k < bins.length := by
        rcases List.getElem?_eq_some_iff.1 hc with ⟨h, _⟩
        exact h
      exact Or.inr ⟨k, c, hk1, hk, hc, hrest⟩
  | cons freq rest ih =>
    obtain ⟨hfreq, hdrop'⟩ := drop_cons_inv bins i freq rest hdrop
    have hilen : i < bins.length := by
      rcases List.getElem?_eq_some_iff.1 hfreq with ⟨h, _⟩
      exact h
    obtain ⟨h1, h2, h3⟩ := hinv
    unfold scan
    by_cases hi : i = 0
    · simp only [hi, if_true]
      refine ih (0 + 1) st (by simpa [hi] using hdrop') ⟨h1, ?_, ?_⟩ ?_
      · intro j c hj1 hj; omega
      · rcases h3 with h3 | ⟨k, c, hk1, hk, -⟩
        · exact Or.inl h3
        · omega
      · intro j hj1 hj; omega
    · simp only [hi, if_false]
      by_cases hgt : binRPM sampleRate windowSize i > Float64.ofInt max.toInt
      · simp only [hgt, if_true]
        exact ⟨i, hilen.le, hcand, fun _ => ⟨by omega, hgt⟩, h1, h2, h3⟩
      · simp only [hgt, if_false]
        have hcand' : ∀ j, 1 ≤ j → j < i + 1 →
            ¬ (binRPM sampleRate windowSize j > Float64.ofInt max.toInt) := by
          intro j hj1 hj
          rcases Nat.lt_succ_iff_lt_or_eq.1 hj with hlt | heq
          · exact hcand j hj1 hlt
          · rw [heq]; exact hgt
        refine ih (i + 1) _ hdrop' ?_ hcand'
        by_cases hr : cmplxAbs freq > st.maxValue
        · simp only [hr, if_true]
          have hpos : Float64.finite 0 < cmplxAbs freq := by
            rcases h1 with h1 | h1
            · rw [h1] at hr; exact hr
            · exact Float64.flt_trans h1 hr
          refine ⟨Or.inr hpos, ?_, ?_⟩
          · intro j c hj1 hj hc
            rcases Nat.lt_succ_iff_lt_or_eq.1 hj with hlt | heq
            · exact Float64.not_lt_of_lt_of_not_lt hr (h2 j c hj1 hlt hc)
            · subst heq
              rw [hfreq] at hc
              cases hc
              exact Float64.flt_irrefl _
          · exact Or.inr ⟨i, freq, by omega, by omega, hfreq, rfl, hpos, rfl⟩
        · simp only [hr, if_false]
          refine ⟨h1, ?_, ?_⟩
          · intro j c hj1 hj hc
            rcases Nat.lt_succ_iff_lt_or_eq.1 hj with hlt | heq
            · exact h2 j c hj1 hlt hc
            · subst heq
              rw [hfreq] at hc
              cases hc
              exact hr
          · rcases h3 with h3 | ⟨k, c, hk1, hk, hrest⟩
            · exact Or.inl h3
            · exact Or.inr ⟨k, c, hk1, by omega, hrest⟩

/-- The candidate RPM of a bin in the lower half of the window is a finite value
between 0 and 60 * 2^32, for a sample rate that fits `uint32`. -/
theorem binRPM_bounds (sampleRate windowSize k : Nat) (hrate : sampleRate < 4294967296)
    (hws : windowSize ≤ sampleRate) (hk1 : 1 ≤ k) (hk : 2 * k < windowSize) :
    ∃ x : ℚ, binRPM sampleRate windowSize k = .finite x ∧ 0 ≤ x ∧ x ≤ 257698037760 := by
  have hsrq : ((sampleRate : Int) : ℚ) = (sampleRate : ℚ) := by push_cast; rfl
  have hwsq : ((windowSize : Int) : ℚ) = (windowSize : ℚ) := by push_cast; rfl
  have hkq : ((k : Int) : ℚ) = (k : ℚ) := by push_cast; rfl
  have hsr : Float64.ofInt (sampleRate : Int) = .finite (sampleRate : ℚ) := by
    rw [← hsrq]; exact Float64.round_intCast _ (by rw [abs_of_nonneg (by omega)]; omega)
  have hw : Float64.ofInt (windowSize : Int) = .finite (windowSize : ℚ) := by
    rw [← hwsq]; exact Float64.round_intCast _ (by rw [abs_of_nonneg (by omega)]; omega)
  have hkf : Float64.ofInt (k : Int) = .finite (k : ℚ) := by
    rw [← hkq]; exact Float64.round_intCast _ (by rw [abs_of_nonneg (by omega)]; omega)
  have hsr0 : (0 : ℚ) ≤ (sampleRate : ℚ) := Nat.cast_nonneg _
  have hsr1 : (sampleRate : ℚ) < 4294967296 := by exact_mod_cast hrate
  have hws0 : (0 : ℚ) < (windowSize : ℚ) := by
    have : 0 < windowSize := by omega
    exact_mod_cast this
  have hwsle : (windowSize : ℚ) ≤ (sampleRate : ℚ) := by exact_mod_cast hws
  have hk1q : (1 : ℚ) ≤ (k : ℚ) := by exact_mod_cast hk1
  have hk2q : 2 * (k : ℚ) < (windowSize : ℚ) := by exact_mod_cast hk
  -- the quotient
  have hq0 : (0 : ℚ) ≤ (sampleRate : ℚ) / (windowSize : ℚ) := div_nonneg hsr0 hws0.le
  have hq1 : (sampleRate : ℚ) / (windowSize : ℚ) ≤ (sampleRate : ℚ) := by
    rw [div_le_iff₀ hws0]
    have : (1 : ℚ) ≤ (windowSize : ℚ) := by linarith
    nlinarith
  obtain ⟨x1, hx1, hx10, hx1c⟩ := Float64.round_le_ceil _ hq0 (by linarith)
  have hx1lt : x1 < (sampleRate : ℚ) / (windowSize : ℚ) + 1 :=
    lt_of_le_of_lt hx1c (Int.ceil_lt_add_one _)
  -- times the bin index
  have hp0 : (0 : ℚ) ≤ x1 * (k : ℚ) := mul_nonneg hx10 (by linarith)
  have hp1 : x1 * (k : ℚ) ≤ (sampleRate : ℚ) := by
    have h1 : x1 * (k : ℚ) ≤ ((sampleRate : ℚ) / (windowSize : ℚ) + 1) * (k : ℚ) :=
      mul_le_mul_of_nonneg_right hx1lt.le (by linarith)
    have h2 : (sampleRate : ℚ) / (windowSize : ℚ) * (k : ℚ) ≤ (sampleRate : ℚ) / 2 := by
      rw [div_mul_eq_mul_div, div_le_div_iff₀ hws0 (by norm_num)]
      nlinarith
    linarith
  obtain ⟨x2, hx2, hx20, hx2c⟩ := Float64.round_le_ceil _ hp0 (by linarith)
  have hx2le : x2 ≤ (sampleRate : ℚ) := by
    refine le_trans hx2c ?_
    have : ⌈x1 * (k : ℚ)⌉ ≤ (sampleRate : Int) := Int.ceil_le.2 (by rw [hsrq]; exact hp1)
    calc ((⌈x1 * (k : ℚ)⌉ : Int) : ℚ) ≤ ((sampleRate : Int) : ℚ) := by exact_mod_cast this
      _ = (sampleRate : ℚ) := hsrq
  -- times 60
  have hr0 : (0 : ℚ) ≤ x2 * 60 := by linarith
  have hr1 : x2 * 60 ≤ 257698037760 := by linarith
  obtain ⟨x3, hx3, hx30, hx3c⟩ := Float64.round_le_ceil _ hr0 (by linarith)
  have hx3le : x3 ≤ 257698037760 := by
    refine le_trans hx3c ?_
    have : ⌈x2 * 60⌉ ≤ (257698037760 : Int) := Int.ceil_le.2 (by exact_mod_cast hr1)
    exact_mod_cast this
  refine ⟨x3, ?_, hx30, hx3le⟩
  unfold binRPM
  rw [hsr, hw, hkf, Float64.sixty_eq]
  have hd : Float64.finite (sampleRate : ℚ) / Float64.finite (windowSize : ℚ)
      = .finite x1 := by
    show Float64.div _ _ = _
    simp only [Float64.div, hws0.ne', if_false]
    exact hx1
  have hm : Float64.finite x1 * Float64.finite (k : ℚ) = .finite x2 := hx2
  have hm2 : Float64.finite x2 * Float64.finite 60 = .finite x3 := hx3
  rw [hd, hm, hm2]

/-- The conversion `int(x)` of a finite value between 0 and 2^53 is its floor. -/
theorem Float64.toInt_of_nonneg (x : ℚ) (h0 : 0 ≤ x) (h1 : x ≤ 9007199254740992) :
    (Float64.finite x).toInt.toInt = ⌊x⌋ := by
  have hnum : 0 ≤ x.num := Rat.num_nonneg.2 h0
  have hfloor : Int.tdiv x.num x.den = ⌊x⌋ := by
    rw [Int.tdiv_eq_ediv hnum (Int.ofNat_nonneg _), Rat.floor_def]
  have hf0 : 0 ≤ ⌊x⌋ := Int.floor_nonneg.2 h0
  have hf1 : ⌊x⌋ ≤ 9007199254740992 := by
    have : ((⌊x⌋ : Int) : ℚ) ≤ ((9007199254740992 : Int) : ℚ) :=
      le_trans (Int.floor_le x) (by exact_mod_cast h1)
    exact_mod_cast this
  have hin : -9223372036854775808 ≤ ⌊x⌋ ∧ ⌊x⌋ < 9223372036854775808 := by omega
  simp only [Float64.toInt, hfloor, hin, and_self, if_true, Int64.toInt_ofInt]
  exact wrap64_of_range _ hin.1 hin.2

/-- C8, as stated, fails: the candidate RPM is computed in double arithmetic, not
exactly.  At a sample rate of 50 with 24 samples and a ceiling of 125, bin 1 has
magnitude 1 and the exact candidate 1 * 50 / 24 * 60 = 125, which does not exceed the
ceiling; the code's candidate is 125.00000000000001..., which does, so the scan stops
before bin 1 and the result is 0, although a bin within the ceiling has positive
magnitude. -/
theorem computeRPM_exact_candidate_fails :
    computeRPM sampleFFT sampleAbs (fun _ => true) ⟨50, 24, sampleTone 24⟩ 125 = .ok 0 ∧
    (sampleFFT (sampleTone 24))[1]? = some ⟨.finite 1, .finite 0⟩ ∧
    sampleAbs ⟨.finite 1, .finite 0⟩ > Float64.finite 0 ∧
    ¬ ((1 : ℚ) * 50 / 24 * 60 > 125) ∧
    binRPM 50 24 1 = .finite (8796093022208001 / 70368744177664) ∧
    binRPM 50 24 1 > Float64.ofInt (125 : Int64).toInt := by
  decide!

/-- Two more runs of the double arithmetic: at a sample rate of 98 with 24 samples the
candidate of bin 1 is 244.99999999999997..., which converts to 244, and at a sample
rate of 4 with 8 samples the candidate of bin 1 is exactly 60. -/
theorem computeRPM_rounding_examples :
    computeRPM sampleFFT sampleAbs (fun _ => true) ⟨98, 24, sampleTone 24⟩ 300 = .ok 244 ∧
    computeRPM sampleFFT sampleAbs (fun _ => true) ⟨4, 8, sampleTone 8⟩ 100 = .ok 60 := by
  decide!

/-- C8, amended: for every positive window size w = min(totalSamples, sampleRate), every
sample rate that fits `uint32`, every non-negative ceiling maxRPM and every sample data,
with an FFT that returns as many bins as it is given samples and a reader that holds at
least the announced samples: the totalSamples / w windows of w samples cover at most
totalSamples samples and are all read without a read error, exactly that many samples
are consumed, every accumulation stays inside the w bins, and the result is an `int` v
with 0 <= v <= maxRPM (returned unless the charting fails).  The candidate RPM of bin i
is float64(sampleRate) / float64(w) * float64(i) * 60 in double arithmetic.  The scan
skips bin 0 and covers the bins from 1 up to a bin `stop` <= w / 2: no covered bin has a
candidate above float64(maxRPM), and `stop` is either w / 2 or the first bin whose
candidate is above it.  Either v = 0 and no covered bin has positive magnitude, or v is
the truncated candidate RPM of a covered bin of positive magnitude that no covered bin
exceeds. -/
theorem computeRPM_in_range (FFTReal : List Float64 → List Complex128)
    (cmplxAbs : Complex128 → Float64) (plot : List (Float64 × Float64) → Bool) (w : Wav)
    (max : Int64)
    (hfft : ∀ xs, (FFTReal xs).length = xs.length)
    (hrate : w.SampleRate < 4294967296)
    (hdata : w.Samples ≤ w.data.length)
    (hws : 0 < windowSizeOf w) (hmax : 0 ≤ max) :
    windowSizeOf w = min w.Samples w.SampleRate ∧
    w.Samples / windowSizeOf w * windowSizeOf w ≤ w.Samples ∧
    ∃ analysis w',
      readWindows FFTReal (windowSizeOf w) (w.Samples / windowSizeOf w) w
        (List.replicate (windowSizeOf w) 0) = .ok (analysis, w') ∧
      analysis.length = windowSizeOf w ∧
      w'.data.length + w.Samples / windowSizeOf w * windowSizeOf w = w.data.length ∧
      ∃ (v : Int64) (cand : Nat → Float64) (stop : Nat),
        (∀ i : Nat, cand i = Float64.ofInt (w.SampleRate : Int)
          / Float64.ofInt (windowSizeOf w : Int) * Float64.ofInt (i : Int) * 60) ∧
        (computeRPM FFTReal cmplxAbs plot w max = .ok v ∨
          computeRPM FFTReal cmplxAbs plot w max = .error .plotError) ∧
        ((∀ pts, plot pts = true) → computeRPM FFTReal cmplxAbs plot w max = .ok v) ∧
        0 ≤ v ∧ v ≤ max ∧
        stop ≤ windowSizeOf w / 2 ∧
        (∀ j, 1 ≤ j → j < stop → ¬ (cand j > Float64.ofInt max.toInt)) ∧
        (stop < windowSizeOf w / 2 → 1 ≤ stop ∧ cand stop > Float64.ofInt max.toInt) ∧
        ((v = 0 ∧ ∀ j c, 1 ≤ j → j < stop →
            (analysis.take (analysis.length / 2))[j]? = some c →
            ¬ (cmplxAbs c > Float64.finite 0)) ∨
          ∃ k c, 1 ≤ k ∧ k < stop ∧
            (analysis.take (analysis.length / 2))[k]? = some c ∧
            cmplxAbs c > Float64.finite 0 ∧
            (∀ j c', 1 ≤ j → j < stop →
              (analysis.take (analysis.length / 2))[j]? = some c' →
              ¬ (cmplxAbs c' > cmplxAbs c)) ∧
            v = (cand k).toInt) := by
  have hcover : w.Samples / windowSizeOf w * windowSizeOf w ≤ w.Samples :=
    Nat.div_mul_le_self _ _
  obtain ⟨analysis, w', hread, hlen, hcount⟩ := readWindows_ok FFTReal hfft (windowSizeOf w)
    (w.Samples / windowSizeOf w) w (List.replicate (windowSizeOf w) 0) (by simp)
    (le_trans hcover hdata)
  refine ⟨windowSizeOf_eq_min w, hcover, analysis, w', hread, hlen, hcount, ?_⟩
  have hne : windowSizeOf w ≠ 0 := by omega
  have hwsle : windowSizeOf w ≤ w.SampleRate := by
    rw [windowSizeOf_eq_min]; exact Nat.min_le_right _ _
  have hblen : (analysis.take (analysis.length / 2)).length = windowSizeOf w / 2 := by
    rw [List.length_take, hlen]
    omega
  obtain ⟨stop, hstop, hbelow, hfirst, h1, h2, h3⟩ :=
    scan_spec cmplxAbs w.SampleRate (windowSizeOf w) max
      (analysis.take (analysis.length / 2)) (analysis.take (analysis.length / 2)) 0 {} rfl
      ⟨Or.inl rfl, fun j c hj1 hj => by omega, Or.inl ⟨rfl, rfl⟩⟩
      (fun j hj1 hj => by omega)
  rw [hblen] at hstop hfirst
  have hmax0 : 0 ≤ max.toInt := by
    rw [Int64.le_iff, Int64.toInt_zero] at hmax
    exact hmax
  have hcomp : computeRPM FFTReal cmplxAbs plot w max
      = if plot (scan cmplxAbs w.SampleRate (windowSizeOf w) max 0
            (analysis.take (analysis.length / 2)) {}).points
        then .ok (scan cmplxAbs w.SampleRate (windowSizeOf w) max 0
            (analysis.take (analysis.length / 2)) {}).maxRPM.toInt
        else .error .plotError := by
    simp only [computeRPM, hne, if_false, hread]
  refine ⟨(scan cmplxAbs w.SampleRate (windowSizeOf w) max 0
    (analysis.take (analysis.length / 2)) {}).maxRPM.toInt,
    binRPM w.SampleRate (windowSizeOf w), stop, fun i => rfl, ?_, ?_, ?_⟩
  · rw [hcomp]
    split
    · exact Or.inl rfl
    · exact Or.inr rfl
  · intro hplot
    rw [hcomp, hplot]
    rfl
  · rcases h3 with ⟨hrpm, hval⟩ | ⟨k, c, hk1, hk, hc, hcval, hcpos, hrpm⟩
    · rw [hrpm]
      have hz : (Float64.finite 0).toInt = 0 := by decide!
      rw [hz]
      refine ⟨by rw [Int64.le_iff], hmax, hstop, hbelow, hfirst, Or.inl ⟨rfl, ?_⟩⟩
      intro j c hj1 hj hc
      have := h2 j c hj1 hj hc
      rwa [hval] at this
    · rw [hrpm]
      obtain ⟨x, hx, hx0, hx1⟩ := binRPM_bounds w.SampleRate (windowSizeOf w) k hrate hwsle
        hk1 (by omega)
      have hv : (binRPM w.SampleRate (windowSizeOf w) k).toInt.toInt = ⌊x⌋ := by
        rw [hx]; exact Float64.toInt_of_nonneg x hx0 (le_trans hx1 (by norm_num))
      have hf0 : 0 ≤ ⌊x⌋ := Int.floor_nonneg.2 hx0
      have hf1 : ⌊x⌋ ≤ 257698037760 := by
        have : ((⌊x⌋ : Int) : ℚ) ≤ ((257698037760 : Int) : ℚ) :=
          le_trans (Int.floor_le x) (by exact_mod_cast hx1)
        exact_mod_cast this
      refine ⟨?_, ?_, hstop, hbelow, hfirst, Or.inr ⟨k, c, hk1, hk, hc, hcpos, ?_, rfl⟩⟩
      · rw [Int64.le_iff, Int64.toInt_zero, hv]
        exact hf0
      · rw [Int64.le_iff, hv]
        by_cases hsmall : max.toInt ≤ 9007199254740992
        · have hmf : Float64.ofInt max.toInt = .finite (max.toInt : ℚ) :=
            Float64.round_intCast _ (by rw [abs_of_nonneg hmax0]; exact hsmall)
          have hnot := hbelow k hk1 hk
          rw [hx, hmf] at hnot
          have hle : x ≤ (max.toInt : ℚ) := by
            have := (Float64.finite_lt_finite (max.toInt : ℚ) x).not.1 hnot
            exact not_lt.1 this
          have : ((⌊x⌋ : Int) : ℚ) ≤ (max.toInt : ℚ) := le_trans (Int.floor_le x) hle
          exact_mod_cast this
        · omega
      · intro j c' hj1 hj hc'
        have := h2 j c' hj1 hj hc'
        rwa [← hcval] at this

theorem computeRPM_in_range_witness :
    (∀ xs, (sampleFFT xs).length = xs.length) ∧
    sampleWav.SampleRate < 4294967296 ∧
    sampleWav.Samples ≤ sampleWav.data.length ∧
    0 < windowSizeOf sampleWav ∧ (0 : Int64) ≤ 300 ∧
    (windowSizeOf sampleWav = min sampleWav.Samples sampleWav.SampleRate ∧
    sampleWav.Samples / windowSizeOf sampleWav * windowSizeOf sampleWav ≤ sampleWav.Samples ∧
    ∃ analysis w',
      readWindows sampleFFT (windowSizeOf sampleWav)
        (sampleWav.Samples / windowSizeOf sampleWav) sampleWav
        (List.replicate (windowSizeOf sampleWav) 0) = .ok (analysis, w') ∧
      analysis.length = windowSizeOf sampleWav ∧
      w'.data.length + sampleWav.Samples / windowSizeOf sampleWav * windowSizeOf sampleWav
        = sampleWav.data.length ∧
      ∃ (v : Int64) (cand : Nat → Float64) (stop : Nat),
        (∀ i : Nat, cand i = Float64.ofInt (sampleWav.SampleRate : Int)
          / Float64.ofInt (windowSizeOf sampleWav : Int) * Float64.ofInt (i : Int) * 60) ∧
        (computeRPM sampleFFT sampleAbs (fun _ => true) sampleWav 300 = .ok v ∨
          computeRPM sampleFFT sampleAbs (fun _ => true) sampleWav 300 = .error .plotError) ∧
        ((∀ pts, (fun _ : List (Float64 × Float64) => true) pts = true) →
          computeRPM sampleFFT sampleAbs (fun _ => true) sampleWav 300 = .ok v) ∧
        0 ≤ v ∧ v ≤ 300 ∧
        stop ≤ windowSizeOf sampleWav / 2 ∧
        (∀ j, 1 ≤ j → j < stop → ¬ (cand j > Float64.ofInt (300 : Int64).toInt)) ∧
        (stop < windowSizeOf sampleWav / 2 →
          1 ≤ stop ∧ cand stop > Float64.ofInt (300 : Int64).toInt) ∧
        ((v = 0 ∧ ∀ j c, 1 ≤ j → j < stop →
            (analysis.take (analysis.length / 2))[j]? = some c →
            ¬ (sampleAbs c > Float64.finite 0)) ∨
          ∃ k c, 1 ≤ k ∧ k < stop ∧
            (analysis.take (analysis.length / 2))[k]? = some c ∧
            sampleAbs c > Float64.finite 0 ∧
            (∀ j c', 1 ≤ j → j < stop →
              (analysis.take (analysis.length / 2))[j]? = some c' →
              ¬ (sampleAbs c' > sampleAbs c)) ∧
            v = (cand k).toInt)) :=
  ⟨fun xs => by simp [sampleFFT], by decide, by decide, by decide, by decide,
    computeRPM_in_range sampleFFT sampleAbs (fun _ => true) sampleWav 300
      (fun xs => by simp [sampleFFT]) (by decide) (by decide) (by decide) (by decide)⟩

end CarSynth
